import Mathlib

/-!
Verification of the bash-command normalizer (bashlex/normalizer.py).

The file shallowly embeds the normalizer's data model and operations:
string preprocessing, the argument-type heuristic, the tree codec
(linearize / delinearize / render), and the core command-normalization
passes over an arena of pointered nodes.  Theorems at the end settle the
spec claims against these definitions.
-/

namespace Normalizer

/-! ### String helpers mirroring the Python primitives used by the source -/

/-- Worker for pyReplace: the pattern is the nonempty list o :: os.  The fuel
argument (instantiated with the input length, an upper bound on the number of
steps) makes the recursion structural so that it reduces in the kernel. -/
def pyReplaceAux (o : Char) (os new : List Char) : Nat → List Char → List Char
  | _, [] => []
  | 0, l => l
  | fuel + 1, c :: rest =>
    if (o :: os).isPrefixOf (c :: rest) then
      new ++ pyReplaceAux o os new fuel (rest.drop os.length)
    else
      c :: pyReplaceAux o os new fuel rest

/-- Python str.replace: replace all non-overlapping occurrences of old by new,
scanning left to right.  (The source only replaces nonempty patterns; an empty
pattern is treated as a no-op here.) -/
def pyReplace (s old new : String) : String :=
  match old.toList with
  | [] => s
  | o :: os => ⟨pyReplaceAux o os new.toList s.toList.length s.toList⟩

/-- Worker for strContains. -/
def strContainsAux (pat : List Char) : List Char → Bool
  | [] => pat.isPrefixOf []
  | c :: rest => pat.isPrefixOf (c :: rest) || strContainsAux pat rest

/-- Python substring test (pat in s). -/
def strContains (s pat : String) : Bool := strContainsAux pat.toList s.toList

/-- Python str.startswith. -/
def pyStartsWith (s pre : String) : Bool := pre.toList.isPrefixOf s.toList

/-- Python str.endswith. -/
def pyEndsWith (s suf : String) : Bool := suf.toList.isSuffixOf s.toList

/-- Python str.upper (ASCII). -/
def pyToUpper (s : String) : String := ⟨s.toList.map Char.toUpper⟩

/-- Python str.lower (ASCII). -/
def pyToLower (s : String) : String := ⟨s.toList.map Char.toLower⟩

/-- Worker for Python value.split on the two-character flag/terminator
separator used by the renderer. -/
def pySplitColonsAux : Nat → List Char → List Char → List (List Char)
  | _, acc, [] => [acc.reverse]
  | 0, acc, l => [acc.reverse ++ l]
  | fuel + 1, acc, ':' :: ':' :: rest => acc.reverse :: pySplitColonsAux fuel [] rest
  | fuel + 1, acc, c :: rest => pySplitColonsAux fuel (c :: acc) rest

/-- Python value.split applied to the double-colon separator. -/
def pySplitColons (s : String) : List String :=
  (pySplitColonsAux s.toList.length [] s.toList).map (fun l => (⟨l⟩ : String))

/-- Python str.strip (remove leading and trailing whitespace). -/
def pyStrip (s : String) : String :=
  ⟨((s.toList.dropWhile Char.isWhitespace).reverse.dropWhile Char.isWhitespace).reverse⟩

/-- Python re.sub with an anchored pattern that rewrites a literal prefix:
if s starts with pat, replace that prefix by repl, else leave s unchanged. -/
def pySubPrefix (s pat repl : String) : String :=
  if pyStartsWith s pat then ⟨repl.toList ++ s.toList.drop pat.toList.length⟩ else s

/-! ### type_check (normalizer.py lines 450-470) -/

/-- Outcome of the Python function type_check: a returned string, the implicit
return None when control falls off the end, or a raised ValueError. -/
inductive TCResult where
  | typed (t : String)
  | retNone
  | raised
deriving DecidableEq

/-- Python str.isdigit restricted to ASCII digits. -/
def pyIsDigit (w : String) : Bool := !w.toList.isEmpty && w.toList.all Char.isDigit

/-- Test of word[-1] membership in a list of unit letters. -/
def lastCharIn (w : String) (cs : List Char) : Bool :=
  match w.toList.getLast? with
  | some c => cs.contains c
  | none => false

/-- Embedding of type_check.  Faithful to the source's elif chain: a word
containing a digit that matches neither unit test falls off the end of the
function (retNone); the ValueError is raised only from the final else. -/
def type_check (word : String) (possible_types : List String) : TCResult :=
  if word == "+" || word == ";" || word == "\x7b\x7d" then .typed "ReservedWord"
  else if pyIsDigit word && possible_types.contains "Number" then .typed "Number"
  else if word.toList.any Char.isDigit then
    if lastCharIn word ['k', 'M', 'G', 'T', 'P'] && possible_types.contains "Size" then
      .typed "Size"
    else if lastCharIn word ['s', 'm', 'h', 'd', 'w'] && possible_types.contains "Time" then
      .typed "Time"
    else .retNone
  else if possible_types.contains "File" then .typed "File"
  else if possible_types.contains "Pattern" then .typed "Pattern"
  else if possible_types.contains "Utility" then .typed "Utility"
  else .raised

/-- Resolution heuristic exactly as claim C5 states it: reserved words; all-digit
word with Number possible; digit word with a matching unit letter; else the
first possible type among File, Pattern, Utility; in every remaining case a
classification error (never an implicit absence).  Written from the claim's
words, to be compared with the source's type_check. -/
def type_check_claimed (word : String) (possible_types : List String) : TCResult :=
  if word == "+" || word == ";" || word == "\x7b\x7d" then .typed "ReservedWord"
  else if pyIsDigit word && possible_types.contains "Number" then .typed "Number"
  else if word.toList.any Char.isDigit && lastCharIn word ['k', 'M', 'G', 'T', 'P']
      && possible_types.contains "Size" then .typed "Size"
  else if word.toList.any Char.isDigit && lastCharIn word ['s', 'm', 'h', 'd', 'w']
      && possible_types.contains "Time" then .typed "Time"
  else if possible_types.contains "File" then .typed "File"
  else if possible_types.contains "Pattern" then .typed "Pattern"
  else if possible_types.contains "Utility" then .typed "Utility"
  else .raised

/-- Amended description of the heuristic (claim C5 corrected): after the
reserved-word, Number and unit rules, a word that contains a digit but matched
no unit rule resolves to no value at all (None) without consulting File,
Pattern or Utility; only a digit-free word with none of File, Pattern, Utility
possible raises the classification error. -/
def type_check_amended (word : String) (possible_types : List String) : TCResult :=
  if word == "+" || word == ";" || word == "\x7b\x7d" then .typed "ReservedWord"
  else if pyIsDigit word && possible_types.contains "Number" then .typed "Number"
  else if word.toList.any Char.isDigit && lastCharIn word ['k', 'M', 'G', 'T', 'P']
      && possible_types.contains "Size" then .typed "Size"
  else if word.toList.any Char.isDigit && lastCharIn word ['s', 'm', 'h', 'd', 'w']
      && possible_types.contains "Time" then .typed "Time"
  else if word.toList.any Char.isDigit then .retNone
  else if possible_types.contains "File" then .typed "File"
  else if possible_types.contains "Pattern" then .typed "Pattern"
  else if possible_types.contains "Utility" then .typed "Utility"
  else .raised

/-! ### special_command_normalization (normalizer.py lines 399-431) -/

/-- Python regex word character, for the pattern in the tar fix. -/
def isWordChar (c : Char) : Bool := c.isAlphanum || c == '_'

/-- Embedding of re.findall(re.compile(r0), cmd) for the fixed six-character
pattern space-t-a-r-space-wordchar, returning the matched substrings of each
non-overlapping match in order. -/
def pyFindAllTarAux : Nat → List Char → List String
  | _, [] => []
  | 0, _ => []
  | fuel + 1, l =>
    match l with
    | ' ' :: 't' :: 'a' :: 'r' :: ' ' :: d :: r2 =>
      if isWordChar d then
        (⟨[' ', 't', 'a', 'r', ' ', d]⟩ : String) :: pyFindAllTarAux fuel r2
      else
        pyFindAllTarAux fuel ('t' :: 'a' :: 'r' :: ' ' :: d :: r2)
    | _ :: rest => pyFindAllTarAux fuel rest
    | [] => []

/-- Matches of the tar-fix pattern in a string. -/
def pyFindAllTar (s : String) : List String := pyFindAllTarAux s.toList.length s.toList

/-- Embedding of special_command_normalization.  Note two faithful oddities of
the source: the shell-character branches guard on a literal
backslash-dollar/backslash-hash prefix but their regexes strip an unescaped
prefix, so the substitutions never fire under their guards; and sudo removal
is a single non-overlapping left-to-right replace. -/
def special_command_normalization (cmd : String) : String :=
  let cmd := pyReplace cmd "sudo" ""
  let cmd := pyReplace cmd "/usr/bin/find" "find"
  let cmd := pyReplace cmd "~/bin/find" "find"
  let cmd := pyReplace cmd "/bin/find" "find"
  let cmd := if pyStartsWith cmd "\\$ " then pySubPrefix cmd "$ " "" else cmd
  let cmd := if pyStartsWith cmd "\\# " then pySubPrefix cmd "# " "" else cmd
  let cmd := if pyStartsWith cmd "\\$find " then pySubPrefix cmd "$find " "find " else cmd
  let cmd := if pyStartsWith cmd "\\#find " then pySubPrefix cmd "#find " "find " else cmd
  let cmd := pyReplace cmd "-\\(" "\\("
  let cmd := pyReplace cmd "-\\)" "\\)"
  let cmd := pyReplace cmd "\"\\)" " \\)"
  if pyStartsWith cmd "tar" then
    let cmd := " " ++ cmd
    let cmd := (pyFindAllTar cmd).foldl
      (fun c w => pyReplace c w (pyReplace w "tar " "tar -")) cmd
    pyStrip cmd
  else cmd

/-! ### Pure tree model and the tree codec (normalizer.py lines 91-178, 244-251,
253-350, 362-397) -/

/-- Pure view of a normalized-tree node: kind, value, the arg_type attribute
(none for plain Node objects and for an arg_type of Python None), and the
ordered children.  Parent and sibling pointers are bookkeeping of the mutable
representation and are carried by the arena model further below. -/
inductive PNode where
  | mk (kind : String) (value : String) (argType : Option String) (children : List PNode)

/-- Kind of a node. -/
def PNode.kind : PNode → String
  | .mk k _ _ _ => k

/-- Value of a node. -/
def PNode.value : PNode → String
  | .mk _ v _ _ => v

/-- Children of a node. -/
def PNode.children : PNode → List PNode
  | .mk _ _ _ cs => cs

/-- Node kinds the normalizer can produce (all lowercase). -/
def kindVocab : List String :=
  ["root", "pipeline", "headcommand", "flag", "argument", "unarylogicop",
   "binarylogicop", "commandsubstitution", "processsubstitution"]

/-- Symbol emitted for a node: kind.upper() + underscore + value (the symbol
property of Node). -/
def symbolOf (k v : String) : String := pyToUpper k ++ "_" ++ v

mutual

/-- Embedding of to_list with order dfs: one symbol per node in pre-order and
one terminator symbol after each node's children, leaves included. -/
def to_list : PNode → List String
  | .mk k v _ cs => symbolOf k v :: to_list_children cs ++ ["<NO_EXPAND>"]

def to_list_children : List PNode → List String
  | [] => []
  | c :: cs => to_list c ++ to_list_children cs

end

mutual

/-- Embedding of to_tokens with loose_constraints=True, ignore_flag_order=False,
arg_type_only=False (the loose rendering mode; with loose constraints every
assert in to_tokens_fun passes).  The error case is the ValueError raised by
unpacking value.split on a flag value containing the separator more than
once. -/
def to_tokens_loose : PNode → Except Unit (List String)
  | .mk k v _ cs =>
    if k = "root" then to_tokens_loose_list cs
    else if k = "pipeline" then
      if cs.length < 1 then .ok ["|"]
      else if cs.length = 1 then to_tokens_loose_list cs
      else to_tokens_loose_sep "|" cs
    else if k = "commandsubstitution" then
      if cs.length < 1 then .ok ["$(", ")"]
      else do
        let a ← to_tokens_loose_first cs
        .ok ("$(" :: a ++ [")"])
    else if k = "processsubstitution" then
      if cs.length < 1 then .ok [v ++ "(", ")"]
      else do
        let a ← to_tokens_loose_first cs
        .ok ((v ++ "(") :: a ++ [")"])
    else if k = "headcommand" then do
      let a ← to_tokens_loose_list cs
      .ok (v :: a)
    else if k = "flag" then
      if strContains v "::" then
        match pySplitColons v with
        | [value, op] => do
          let a ← to_tokens_loose_list cs
          .ok (value :: a ++ [op])
        | _ => .error ()
      else do
        let a ← to_tokens_loose_list cs
        .ok (v :: a)
    else if k = "binarylogicop" then
      if cs.length < 2 then to_tokens_loose_list cs
      else do
        let a ← to_tokens_loose_sep v cs
        .ok ("\\(" :: a ++ ["\\)"])
    else if k = "unarylogicop" then
      if cs.length < 1 then .ok [v]
      else do
        let a ← to_tokens_loose_first cs
        .ok (v :: a)
    else if k = "argument" then do
      let a ← to_tokens_loose_list cs
      .ok (v :: a)
    else .ok []

def to_tokens_loose_list : List PNode → Except Unit (List String)
  | [] => .ok []
  | c :: cs => do
    let a ← to_tokens_loose c
    let b ← to_tokens_loose_list cs
    .ok (a ++ b)

def to_tokens_loose_sep (sep : String) : List PNode → Except Unit (List String)
  | [] => .ok []
  | [c] => to_tokens_loose c
  | c :: cs => do
    let a ← to_tokens_loose c
    let b ← to_tokens_loose_sep sep cs
    .ok (a ++ [sep] ++ b)

def to_tokens_loose_first : List PNode → Except Unit (List String)
  | [] => .ok []
  | c :: _ => to_tokens_loose c

end

/-- Python symbol.split(underscore, 1): the text before the first underscore
and the text after it, or none when there is no underscore (in which case the
source's tuple unpacking raises). -/
def pySplitUnderscore : List Char → Option (List Char × List Char)
  | [] => none
  | c :: r =>
    if c = '_' then some ([], r)
    else
      match pySplitUnderscore r with
      | none => none
      | some (a, b) => some (c :: a, b)

/-- Partially built node during delinearization: the cursor stack. -/
structure Frame where
  kind : String
  value : String
  argType : Option String
  children : List PNode

/-- Finish a frame into a node. -/
def frameToNode (f : Frame) : PNode := .mk f.kind f.value f.argType f.children

/-- Nearest headcommand value in a stack of frames, searched top-down: the
getHeadCommand walk of the source, which crashes when no headcommand ancestor
exists (represented by none). -/
def framesHC : List Frame → Option String
  | [] => none
  | f :: fs => if f.kind = "headcommand" then some f.value else framesHC fs

/-- Argument-type computation of the to_ast loop for a new node of kind k and
value v created under a cursor of kind pk and value pv, with hc the nearest
headcommand value strictly above the cursor.  Mirrors lines 376-390: argument
nodes consult the grammar lookups, flag and headcommand nodes get the
ArgumentNode default empty arg_type, anything else is a plain Node.  The error
outcome covers the ValueError raised by type_check and the AttributeError of a
getHeadCommand walk that finds no headcommand. -/
def argTypeFor (gA : String → List String) (gF : String → String → Option String)
    (pk pv : String) (hc : Option String) (k v : String) : Except Unit (Option String) :=
  if k = "argument" then
    if pk = "flag" then
      match hc with
      | some h => .ok (gF h pv)
      | none => .error ()
    else if pk = "headcommand" then
      match type_check v (gA pv) with
      | .typed ty => .ok (some ty)
      | .retNone => .ok none
      | .raised => .error ()
    else .ok (some "Unknown")
  else if k = "flag" ∨ k = "headcommand" then .ok (some "")
  else .ok none

/-- State of the to_ast replay: a cursor stack rooted at the synthetic root
frame, or the finished root after the terminator popped it (current is None
and the loop only breaks from then on). -/
inductive AstState where
  | building (stk : List Frame)
  | done (root : PNode)

/-- One iteration of the to_ast loop body on symbol s.  Errors are the
ValueError from unpacking a separator-free symbol, the ValueError raised by
type_check, and the AttributeError of the getHeadCommand walk running past the
root. -/
def to_ast_step (gA : String → List String) (gF : String → String → Option String)
    (st : AstState) (s : String) : Except Unit AstState :=
  match st with
  | .done r => .ok (.done r)
  | .building stk =>
    if s = "<NO_EXPAND>" then
      match stk with
      | [] => .ok (.building [])
      | [f] => .ok (.done (frameToNode f))
      | f :: g :: more =>
        .ok (.building ({ g with children := g.children ++ [frameToNode f] } :: more))
    else
      match pySplitUnderscore s.toList with
      | none => .error ()
      | some (kRaw, vRaw) =>
        let kind := pyToLower (String.mk kRaw)
        let value := String.mk vRaw
        match stk with
        | [] => .ok (.building [])
        | f :: fs =>
          match argTypeFor gA gF f.kind f.value (framesHC fs) kind value with
          | .ok aty => .ok (.building (⟨kind, value, aty, []⟩ :: f :: fs))
          | .error e => .error e

/-- Replay of the to_ast loop over the remaining symbols. -/
def to_ast_run (gA : String → List String) (gF : String → String → Option String) :
    List String → AstState → Except Unit AstState
  | [], st => .ok st
  | s :: rest, st =>
    match to_ast_step gA gF st s with
    | .error e => .error e
    | .ok st' => to_ast_run gA gF rest st'

/-- Collapse a leftover stack bottom-up: in the source every created node was
already attached to its parent at creation time, so a truncated symbol list
still leaves the partial nodes inside the returned root. -/
def collapseFrames : Frame → List Frame → PNode
  | f, [] => frameToNode f
  | f, g :: more => collapseFrames { g with children := g.children ++ [frameToNode f] } more

/-- Embedding of to_ast with order dfs.  The first symbol is skipped (the loop
starts at index 1) and the cursor starts at a fresh root node valued root.
Argument types are re-derived through the grammar lookups gA
(man_lookup.get_arg_types) and gF (man_lookup.get_flag_arg_type), which are
modelled from the spec: the per-utility grammar service is an external
collaborator of the repository. -/
def to_ast (gA : String → List String) (gF : String → String → Option String)
    (symbols : List String) : Except Unit PNode :=
  match to_ast_run gA gF (symbols.drop 1) (.building [⟨"root", "root", none, []⟩]) with
  | .error e => .error e
  | .ok (.done r) => .ok r
  | .ok (.building []) => .ok (.mk "root" "root" none [])
  | .ok (.building (f :: fs)) => .ok (collapseFrames f fs)

mutual

/-- Re-derivation of argument types that to_ast performs, expressed as a pure
tree transformation.  The context is the parent's kind pk and value pv and the
nearest headcommand value hc strictly above the parent. -/
def retype (gA : String → List String) (gF : String → String → Option String)
    (pk pv : String) (hc : Option String) : PNode → PNode
  | .mk k v _ cs =>
    let t :=
      match argTypeFor gA gF pk pv hc k v with
      | .ok aty => aty
      | .error _ => none
    .mk k v t (retype_list gA gF k v (if pk = "headcommand" then some pv else hc) cs)

def retype_list (gA : String → List String) (gF : String → String → Option String)
    (pk pv : String) (hc : Option String) : List PNode → List PNode
  | [] => []
  | c :: cs => retype gA gF pk pv hc c :: retype_list gA gF pk pv hc cs

end

/-- Per-node reconstruction condition: an argument under a flag has a
headcommand ancestor (else the getHeadCommand walk crashes), and an argument
directly under a headcommand re-type-checks without raising. -/
def goodCond (gA : String → List String) (pk pv : String) (hc : Option String)
    (k v : String) : Bool :=
  if k = "argument" then
    if pk = "flag" then hc.isSome
    else if pk = "headcommand" then
      match type_check v (gA pv) with
      | .raised => false
      | _ => true
    else true
  else true

mutual

/-- Well-formedness of a tree for reconstruction in context: every kind is in
the produced vocabulary and every node satisfies goodCond in its context. -/
def goodTree (gA : String → List String) (pk pv : String) (hc : Option String) :
    PNode → Bool
  | .mk k v _ cs =>
    kindVocab.contains k && goodCond gA pk pv hc k v &&
    goodTree_list gA k v (if pk = "headcommand" then some pv else hc) cs

def goodTree_list (gA : String → List String) (pk pv : String) (hc : Option String) :
    List PNode → Bool
  | [] => true
  | c :: cs => goodTree gA pk pv hc c && goodTree_list gA pk pv hc cs

end

/-! ### Arena model of the mutable Node objects (normalizer.py lines 91-237,
433-448) -/

/-- Mutable node: kind, value, the arg_type attribute (none for plain Node
objects and for Python None), the parent / left-sibling / right-sibling
pointers and the owned ordered children, all by arena id. -/
structure ANode where
  kind : String
  value : String
  argType : Option String
  parent : Option Nat
  lsb : Option Nat
  rsb : Option Nat
  children : List Nat
deriving DecidableEq

instance : Inhabited ANode := ⟨⟨"", "", none, none, none, none, []⟩⟩

/-- Arena of nodes; a node's id is its index, allocation appends.  Objects are
never deallocated (as in Python, nodes removed from a children sequence simply
become unreferenced). -/
structure Arena where
  nodes : List ANode
deriving DecidableEq

/-- Node lookup (total: out-of-range ids, which never occur in runs, give the
default node). -/
def Arena.get (a : Arena) (i : Nat) : ANode := a.nodes.getD i default

/-- Replace node i. -/
def Arena.set (a : Arena) (i : Nat) (n : ANode) : Arena := ⟨a.nodes.set i n⟩

/-- Allocate a fresh node, returning its id. -/
def Arena.alloc (a : Arena) (n : ANode) : Arena × Nat := (⟨a.nodes ++ [n]⟩, a.nodes.length)

/-- Update node i in place. -/
def Arena.modify (a : Arena) (i : Nat) (f : ANode → ANode) : Arena := a.set i (f (a.get i))

/-- Node.getRightChild (last child or none). -/
def getRightChildId (a : Arena) (i : Nat) : Option Nat := (a.get i).children.getLast?

/-- Node.getNumChildren. -/
def getNumChildren (a : Arena) (i : Nat) : Nat := (a.get i).children.length

/-- Embedding of make_sibling: point l.rsb at r and r.lsb at l, each when the
side is present. -/
def make_sibling (a : Arena) (l r : Option Nat) : Arena :=
  let a1 :=
    match l with
    | some i => a.modify i (fun n => { n with rsb := r })
    | none => a
  match r with
  | some j => a1.modify j (fun n => { n with lsb := l })
  | none => a1

/-- Embedding of attach_to_tree: set the node's parent and lsb, append it to
the parent's children and point the previous last child's rsb at it.  The
node's own rsb is deliberately not written, exactly as in the source. -/
def attach_to_tree (a : Arena) (node parent : Nat) : Arena :=
  let ls := getRightChildId a parent
  let a1 := a.modify node (fun n => { n with parent := some parent, lsb := ls })
  let a2 := a1.modify parent (fun n => { n with children := n.children ++ [node] })
  match ls with
  | some l => a2.modify l (fun n => { n with rsb := some node })
  | none => a2

/-- Embedding of make_parentchild (no sibling maintenance). -/
def make_parentchild (a : Arena) (parent child : Nat) : Arena :=
  let a1 := a.modify parent (fun n => { n with children := n.children ++ [child] })
  a1.modify child (fun n => { n with parent := some parent })

/-- Embedding of Node.removeChild: children.remove (first occurrence), with no
pointer maintenance. -/
def removeChild (a : Arena) (p c : Nat) : Arena :=
  a.modify p (fun n => { n with children := n.children.erase c })

/-- Embedding of Node.replaceChild.  (Python children.index raises on a missing
child; ids are present by construction in every use, where List.indexOf would
otherwise insert at the end.) -/
def replaceChild (a : Arena) (self child newc : Nat) : Arena :=
  let a1 := a.modify newc (fun n => { n with parent := (a.get child).parent })
  let idx := (a1.get self).children.indexOf child
  let a2 := removeChild a1 self child
  let a3 := a2.modify self (fun n => { n with children := n.children.insertIdx idx newc })
  let a4 := make_sibling a3 ((a3.get child).lsb) (some newc)
  make_sibling a4 (some newc) ((a4.get child).rsb)

/-- Embedding of Node.substituteParentheses: splice newc in place of the
lp/rp pair, returning the insertion index. -/
def substituteParentheses (a : Arena) (self lp rp newc : Nat) : Arena × Nat :=
  let a1 := a.modify newc (fun n => { n with parent := (a.get rp).parent })
  let a2 := make_sibling a1 ((a1.get lp).lsb) (some newc)
  let a3 := make_sibling a2 (some newc) ((a2.get rp).rsb)
  let idx := (a3.get self).children.indexOf lp
  let a4 := removeChild a3 self lp
  let a5 := removeChild a4 self rp
  (a5.modify self (fun n => { n with children := n.children.insertIdx idx newc }), idx)

/-- Embedding of organize_buffer: a synthetic binarylogicop valued -and
wrapping the buffered nodes in order. -/
def organize_buffer (a : Arena) (buffer : List Nat) : Arena × Nat :=
  let (a1, nid) := a.alloc ⟨"binarylogicop", "-and", none, none, none, none, []⟩
  (buffer.foldl (fun acc b => attach_to_tree acc b nid) a1, nid)

/-- Sibling/parent bookkeeping invariant at node p: every child's parent
pointer names p and its lsb/rsb pointers name exactly its neighbours in p's
children sequence. -/
def linkedAt (a : Arena) (p : Nat) : Bool :=
  let cs := (a.get p).children
  (List.range cs.length).all (fun k =>
    let c := cs.getD k 0
    ((a.get c).parent == some p) &&
    ((a.get c).lsb == (if k = 0 then none else some (cs.getD (k - 1) 0))) &&
    ((a.get c).rsb == (if k = cs.length - 1 then none else some (cs.getD (k + 1) 0))))

/-! ### Embedding of normalize_ast's command normalization
(normalizer.py lines 472-977) -/

/-- Errors of the normalization passes.  valueError and assertionError are
caught by normalize_ast (absence value); processExit (sys.exit), indexError
and attributeError escape the caller; fuel is an artifact of the embedding
(calls are made with ample fuel, and a Python loop that would iterate forever
surfaces as fuel). -/
inductive NErr where
  | valueError (msg : String)
  | assertionError
  | processExit
  | indexError
  | attributeError
  | fuel
deriving DecidableEq

/-- Word token of a command: the parser's word text and the source slice
cmd[pos0:pos1] it came from (the slice retains quotation marks).  The
embedding covers commands whose parts are plain words without expansions,
which is the shape of every input the claims are about. -/
structure WordPart where
  word : String
  src : String
deriving DecidableEq

instance : Inhabited WordPart := ⟨⟨"", ""⟩⟩

/-- Modelled from the spec: the external collaborators of the normalizer (the
static command registry bash.head_commands and bash.is_double_option, and the
grammar lookup service man_lookup over the external grammar files).  Concrete
instantiations are supplied per theorem. -/
structure Externals where
  is_headcommand : String → Bool
  is_double_option : String → Bool
  get_arg_types : String → List String
  get_flag_arg_type : String → String → Option String

/-- Configuration: the externals plus normalize_ast's three keyword flags
(all default True). -/
structure NConf where
  E : Externals
  normDigit : Bool
  normLongPattern : Bool
  recoverQuote : Bool

/-- Modelled from the spec: bash._NUM, the fixed numeral placeholder. -/
def NUM_PLACEHOLDER : String := "_NUM"

/-- Modelled from the spec: bash._LONG_PATTERN, the fixed long-pattern
placeholder. -/
def LONG_PATTERN : String := "_LONG_PATTERN"

/-- Modelled from the spec: re.sub(bash._DIGIT_RE, bash._NUM, w) replaces
every maximal digit run with the numeral placeholder. -/
def replaceDigitRuns : Nat → List Char → List Char
  | _, [] => []
  | 0, l => l
  | fuel + 1, c :: rest =>
    if c.isDigit then
      NUM_PLACEHOLDER.toList ++ replaceDigitRuns fuel (rest.dropWhile Char.isDigit)
    else c :: replaceDigitRuns fuel rest

/-- Embedding of with_quotation: the source slice starts or ends with a double
quote. -/
def with_quotation (p : WordPart) : Bool :=
  p.src.toList.head? == some '"' || p.src.toList.getLast? == some '"'

/-- Embedding of recover_quotation. -/
def recover_quotation (p : WordPart) : String :=
  if with_quotation p then p.src else p.word

/-- Embedding of normalize_word for a word part.  The quotation assert on a
space-containing argument is a caught, logged anomaly in the source and does
not affect the value. -/
def normalize_word (C : NConf) (p : WordPart) (kind : String) : String :=
  let w := if C.recoverQuote then recover_quotation p else p.word
  if kind == "argument" then
    let w := if strContains w " " then (if C.normLongPattern then LONG_PATTERN else w) else w
    if C.normDigit then ⟨replaceDigitRuns w.toList.length w.toList⟩ else w
  else w

/-- Embedding of the word case of normalize for an expansion-free word:
normalize the word and attach a new node of the requested kind under
current. -/
def normalize_simple (C : NConf) (a : Arena) (p : WordPart) (current : Nat)
    (node_kind : String) (arg_type : Option String) : Arena :=
  let v := normalize_word C p node_kind
  let r := a.alloc ⟨node_kind, v, arg_type, none, none, none, []⟩
  attach_to_tree r.1 r.2 current

/-- The unary_logic_operators set. -/
def unary_logic_operators : List String := ["!", "-not"]

/-- The binary_logic_operators set. -/
def binary_logic_operators : List String := ["-and", "-or", "||", "&&", "-o", "-a"]

/-- Shell-wrapper head commands recognized as introducing a nested command. -/
def shell_wrappers : List String := ["sh", "csh", "ksh", "tcsh", "zsh", "bash", "exec", "xargs"]

/-- Flags that introduce an embedded sub-command. -/
def exec_flags : List String := ["-exec", "-execdir", "-ok", "-okdir"]

/-- Embedding of is_unary_logic_op on the word of a node with a given parent
(the resolved attach point). -/
def is_unary_logic_op (w : String) (a : Arena) (p : Nat) : Bool :=
  if w == "!" then ((a.get p).kind == "headcommand") && ((a.get p).value == "find")
  else unary_logic_operators.contains w

/-- Embedding of is_binary_logic_op: besides the decision, returns the node's
word, rewritten to -or / -and exactly when the parent is the headcommand
find. -/
def is_binary_logic_op (w : String) (a : Arena) (p : Nat) : Bool × String :=
  if w == "-o" then
    if ((a.get p).kind == "headcommand") && ((a.get p).value == "find") then (true, "-or")
    else (false, w)
  else if w == "-a" then
    if ((a.get p).kind == "headcommand") && ((a.get p).value == "find") then (true, "-and")
    else (false, w)
  else (binary_logic_operators.contains w, w)

/-- Embedding of find_flag_attach_point: walk up through flag nodes to a
headcommand or logic-operator node; anything else raises the ValueError. -/
def find_flag_attach_point (a : Arena) : Nat → Nat → Except NErr Nat
  | 0, _ => .error .fuel
  | fuel + 1, i =>
    if (a.get i).kind == "flag" then
      match (a.get i).parent with
      | some p => find_flag_attach_point a fuel p
      | none => .error .attributeError
    else if (a.get i).kind == "headcommand" then .ok i
    else if ((a.get i).kind == "unarylogicop") || ((a.get i).kind == "binarylogicop") then .ok i
    else .error (.valueError "cannot decide where to attach flag node")

/-- Walk for getHeadCommand: follow parent pointers to the nearest
headcommand; running past the root is the AttributeError of the source. -/
def getHeadCommandWalk (a : Arena) : Nat → Option Nat → Except NErr Nat
  | _, none => .error .attributeError
  | 0, some _ => .error .fuel
  | fuel + 1, some i =>
    if (a.get i).kind == "headcommand" then .ok i
    else getHeadCommandWalk a fuel (a.get i).parent

/-- Embedding of ArgumentNode.getHeadCommand: self when already a headcommand,
the nearest headcommand ancestor for flag/argument nodes, and Python None
(implicit) for any other kind. -/
def getHeadCommand (a : Arena) (fuel : Nat) (i : Nat) : Except NErr (Option Nat) :=
  if (a.get i).kind == "headcommand" then .ok (some i)
  else if ((a.get i).kind == "flag") || ((a.get i).kind == "argument") then
    match getHeadCommandWalk a fuel (a.get i).parent with
    | .ok h => .ok (some h)
    | .error e => .error e
  else .ok none

/-- Python truthiness of an optional string (None and the empty string are
falsy). -/
def optFalsy : Option String → Bool
  | none => true
  | some s => s.isEmpty

/-- Embedding of attach_option: resolve the attach point, attach the word as a
single flag unless it is a splittable short-option cluster, in which case one
flag per character is attached in order; the new attach point is the resolved
point's right child. -/
def attach_option (C : NConf) (fuel : Nat) (a : Arena) (p : WordPart) (ap0 : Nat) :
    Except NErr (Arena × Nat) := do
  let ap ← find_flag_attach_point a fuel ap0
  let a1 ←
    if C.E.is_double_option p.word || unary_logic_operators.contains p.word ||
        binary_logic_operators.contains p.word || ((a.get ap).value == "find") ||
        p.word.toList.length ≤ 1 then
      pure (normalize_simple C a p ap "flag" (some ""))
    else
      match p.word.toList with
      | '-' :: options =>
        if options.length = 1 then
          pure (normalize_simple C a p ap "flag" (some ""))
        else
          pure (options.foldl
            (fun acc c =>
              normalize_simple C acc ⟨(⟨['-', c]⟩ : String), p.src⟩ ap "flag" (some "")) a)
      | _ => throw NErr.assertionError
  match getRightChildId a1 ap with
  | some r => pure (a1, r)
  | none => throw NErr.attributeError

/-- Embedding of attach_argument: climb off a saturated flag, consult the
grammar for the argument type (raising type_check errors as ValueError), fall
back to the head command when the flag takes no argument, and attach the word
as a typed argument node. -/
def attach_argument (C : NConf) (fuel : Nat) (a : Arena) (p : WordPart) (apIn : Nat) :
    Except NErr Arena := do
  let ap ←
    if ((a.get apIn).kind == "flag") && getNumChildren a apIn ≥ 1 then
      match (a.get apIn).parent with
      | some q => pure q
      | none => throw NErr.attributeError
    else pure apIn
  if (a.get ap).kind == "flag" then
    match ← getHeadCommand a fuel ap with
    | some hcId =>
      let aty := C.E.get_flag_arg_type ((a.get hcId).value) ((a.get ap).value)
      let ap2 := if optFalsy aty then hcId else ap
      pure (normalize_simple C a p ap2 "argument" aty)
    | none => throw NErr.attributeError
  else if (a.get ap).kind == "headcommand" then
    match type_check p.word (C.E.get_arg_types ((a.get ap).value)) with
    | .typed t => pure (normalize_simple C a p ap "argument" (some t))
    | .retNone => pure (normalize_simple C a p ap "argument" none)
    | .raised => throw (NErr.valueError "Unable to decide type")
  else
    pure (normalize_simple C a p ap "argument" (some "Unknown"))

/-- Embedding of adjust_unary_operators on a recorded operator id: the right
sibling becomes the sole child; a missing right sibling is only a logged
warning; an open-parenthesis right sibling defers the operator (returned as
some id). -/
def adjust_unary_operators (a : Arena) (uid : Nat) : Except NErr (Arena × Option Nat) :=
  match (a.get uid).rsb with
  | none => .ok (a, none)
  | some r =>
    if (a.get r).value == "(" then .ok (a, some uid)
    else do
      let a1 := make_sibling a (some uid) ((a.get r).rsb)
      let a2 ←
        match (a1.get uid).parent with
        | some pp => pure (removeChild a1 pp r)
        | none => throw NErr.attributeError
      let a3 := a2.modify r (fun n => { n with parent := some uid, lsb := none, rsb := none })
      pure (a3.modify uid (fun n => { n with children := n.children ++ [r] }), none)

/-- Embedding of adjust_binary_operators: left and right siblings become the
two children, flattening a left sibling that is the same binary operator; a
missing sibling exits the process; a parenthesis neighbour defers the
operator; afterwards a parent that is a one-child -and is replaced by this
node in the grandparent. -/
def adjust_binary_operators (a : Arena) (bid : Nat) : Except NErr (Arena × Option Nat) := do
  match (a.get bid).rsb, (a.get bid).lsb with
  | none, _ => throw NErr.processExit
  | some _, none => throw NErr.processExit
  | some r, some l =>
    if ((a.get r).value == "(") || ((a.get l).value == ")") then pure (a, some bid)
    else do
      if (a.get r).value == ")" then throw NErr.assertionError
      if (a.get l).value == "(" then throw NErr.assertionError
      let rr := (a.get r).rsb
      let ll := (a.get l).lsb
      let a1 := make_sibling a (some bid) rr
      let a2 := make_sibling a1 ll (some bid)
      let pp ←
        match (a2.get bid).parent with
        | some pp => pure pp
        | none => throw NErr.attributeError
      let a3 := removeChild a2 pp r
      let a4 := removeChild a3 pp l
      let a5 := a4.modify r (fun n => { n with rsb := none })
      let a6 := a5.modify l (fun n => { n with lsb := none })
      let a7 ←
        if ((a6.get l).kind == "binarylogicop") && ((a6.get l).value == (a6.get bid).value) then do
          let lcs := (a6.get l).children
          let ax := lcs.foldl (fun acc c => make_parentchild acc bid c) a6
          let ax2 := make_parentchild ax bid r
          pure (make_sibling ax2 ((ax2.get l).children.getLast?) (some r))
        else do
          let ax := make_parentchild a6 bid l
          let ax2 := make_parentchild ax bid r
          pure (make_sibling ax2 (some l) (some r))
      if ((a7.get pp).kind == "binarylogicop") && ((a7.get pp).value == "-and") &&
          getNumChildren a7 pp == 1 then
        match (a7.get pp).parent with
        | some gp => pure (replaceChild a7 gp pp bid, none)
        | none => throw NErr.attributeError
      else pure (a7, none)

/-- One fix-up pass over recorded operator ids, collecting the deferred
ones in order. -/
def adjust_pass (f : Arena → Nat → Except NErr (Arena × Option Nat)) :
    List Nat → Arena → List Nat → Except NErr (Arena × List Nat)
  | [], a, acc => .ok (a, acc.reverse)
  | x :: xs, a, acc => do
    let (a', d) ← f a x
    adjust_pass f xs a'
      (match d with
       | some u => u :: acc
       | none => acc)

/-- Pop loop of the close-parenthesis handler: pop stack entries back to the
matching open marker, removing each popped node from the head command's
children and collecting them in original order; popping an empty stack is the
IndexError of the source. -/
def paren_pop (head : Nat) : Nat → Arena → List Nat → List Nat →
    Except NErr (Arena × Nat × List Nat × List Nat)
  | 0, _, _, _ => .error .fuel
  | fuel + 1, a, stack, buffer =>
    match stack with
    | [] => .error .indexError
    | popped :: rest =>
      if (a.get popped).value == "(" then .ok (a, popped, rest, buffer)
      else paren_pop head fuel (removeChild a head popped) rest (popped :: buffer)

/-- Embedding of the parenthesis-desugaring loop over the head command's
children (lines 788-818), returning the final arena together with the stack
and depth that the trailing asserts inspect. -/
def paren_scan (head : Nat) : Nat → Arena → List Nat → Nat → Nat →
    Except NErr (Arena × List Nat × Nat)
  | 0, _, _, _, _ => .error .fuel
  | fuel + 1, a, stack, depth, i =>
    if i < getNumChildren a head then
      let child := (a.get head).children.getD i 0
      if (a.get child).value == "(" then
        paren_scan head fuel a (child :: stack) (depth + 1) (i + 1)
      else if (a.get child).value == ")" then
        if depth ≥ 1 then do
          let (a1, lp, stack1, buffer) ← paren_pop head fuel a stack []
          let (a2, newc) ←
            if buffer.length > 1 then pure (organize_buffer a1 buffer)
            else
              match buffer with
              | [b] => pure (a1, b)
              | _ => throw NErr.indexError
          let (a3, idx) := substituteParentheses a2 head lp child newc
          let depth1 := depth - 1
          let stack2 := if depth1 ≥ 1 then newc :: stack1 else stack1
          paren_scan head fuel a3 stack2 depth1 (idx + 1)
        else throw NErr.assertionError
      else if depth ≥ 1 then
        paren_scan head fuel a (child :: stack) depth (i + 1)
      else
        paren_scan head fuel a stack depth (i + 1)
    else .ok (a, stack, depth)

/-- Head-command count check after the scan (lines 767-778): zero head
commands returns silently, more than one prints and exits the process. -/
def check_head_commands (hcs : List Nat) : Except NErr (Option Nat) :=
  match hcs with
  | [] => .ok none
  | [h] => .ok (some h)
  | _ => .error .processExit

/-- Collection loop of the -exec embedded sub-command (lines 693-705): the
parts from the embedded head command up to a terminator word, the final loop
index, and the terminator actually seen. -/
def collect_exec_aux : List WordPart → Nat → List WordPart →
    List WordPart × Nat × Option String
  | [], j, acc => (acc.reverse, j - 1, none)
  | p :: rest, j, acc =>
    if p.word == ";" || p.word == "+" then (acc.reverse, j, some p.word)
    else collect_exec_aux rest (j + 1) (p :: acc)

/-- Collect the embedded sub-command starting at index i. -/
def collect_exec (parts : List WordPart) (i : Nat) : List WordPart × Nat × Option String :=
  collect_exec_aux (parts.drop i) i []

/-- State of the left-to-right scan of normalize_command. -/
structure ScanState where
  arena : Arena
  attach_point : Nat
  eoo : Bool
  head_commands : List Nat
  unary_ops : List Nat
  binary_ops : List Nat
  paren_attach : List Nat
deriving DecidableEq

mutual

/-- Embedding of normalize_command on a command's word parts: the scan, the
parenthesis-attach assert, the head-command check, the operator fix-up passes,
parenthesis desugaring, the deferred fix-up passes and the trailing asserts.
A deferral re-appearing in the deferred pass would loop forever in the source
and surfaces as fuel here. -/
def normalize_command (C : NConf) : Nat → List WordPart → Arena → Nat → Except NErr Arena
  | 0, _, _, _ => .error .fuel
  | fuel + 1, parts, a, current => do
    let st ← nc_scan C fuel parts 0
      ⟨a, current, false, [], [], [], []⟩
    if st.paren_attach.length ≠ 0 then throw NErr.assertionError
    match ← check_head_commands st.head_commands with
    | none => pure st.arena
    | some head => do
      let (a1, du) ← adjust_pass adjust_unary_operators st.unary_ops st.arena []
      let (a2, db) ← adjust_pass adjust_binary_operators st.binary_ops a1 []
      let (a3, stack, depth) ← paren_scan head fuel a2 [] 0 0
      let (a4, du2) ← adjust_pass adjust_unary_operators du a3 []
      let (a5, db2) ← adjust_pass adjust_binary_operators db a4 []
      if du2.length ≠ 0 then throw NErr.fuel
      if db2.length ≠ 0 then throw NErr.fuel
      if stack.length ≠ 0 then throw NErr.assertionError
      if depth ≠ 0 then throw NErr.assertionError
      pure a5

/-- One step of the while loop of normalize_command (lines 658-763), followed
by the rest of the scan. -/
def nc_scan (C : NConf) : Nat → List WordPart → Nat → ScanState → Except NErr ScanState
  | 0, _, _, _ => .error .fuel
  | fuel + 1, parts, i, st =>
    if i < parts.length then
      let p := parts.getD i default
      if p.word == "--" then
        nc_scan C fuel parts (i + 1) { st with eoo := true }
      else if unary_logic_operators.contains p.word then do
        let ap ← find_flag_attach_point st.arena fuel st.attach_point
        if is_unary_logic_op p.word st.arena ap then
          let (a1, nid) := st.arena.alloc ⟨"unarylogicop", p.word, none, none, none, none, []⟩
          let a2 := attach_to_tree a1 nid ap
          nc_scan C fuel parts (i + 1)
            { st with arena := a2, attach_point := ap, unary_ops := st.unary_ops ++ [nid] }
        else do
          let (a1, ap') ← attach_option C fuel st.arena p ap
          nc_scan C fuel parts (i + 1) { st with arena := a1, attach_point := ap' }
      else if binary_logic_operators.contains p.word then do
        let ap ← find_flag_attach_point st.arena fuel st.attach_point
        let (isb, w') := is_binary_logic_op p.word st.arena ap
        if isb then
          let (a1, nid) := st.arena.alloc ⟨"binarylogicop", w', none, none, none, none, []⟩
          let a2 := attach_to_tree a1 nid ap
          nc_scan C fuel parts (i + 1)
            { st with arena := a2, attach_point := ap, binary_ops := st.binary_ops ++ [nid] }
        else do
          let (a1, ap') ← attach_option C fuel st.arena p ap
          nc_scan C fuel parts (i + 1) { st with arena := a1, attach_point := ap' }
      else if C.E.is_headcommand p.word && !(with_quotation p) &&
          (!((st.arena.get st.attach_point).kind == "headcommand") ||
            shell_wrappers.contains ((st.arena.get st.attach_point).value)) then
        if i > 0 then
          if (st.arena.get st.attach_point).kind == "flag" then
            if exec_flags.contains ((st.arena.get st.attach_point).value) then do
              let (subparts, j, term) := collect_exec parts i
              let a1 ← normalize_command C fuel subparts st.arena st.attach_point
              let (a2, i2) ←
                match term with
                | some t =>
                  pure (a1.modify st.attach_point
                    (fun n => { n with value := n.value ++ "::" ++ t }), j)
                | none => do
                  let lastSrc := (parts.getLast?.getD default).src
                  pure (normalize_simple C a1 ⟨"\\;", lastSrc⟩ st.attach_point
                    "argument" (some ""), j)
              let ap' ←
                match (a2.get st.attach_point).parent with
                | some q => pure q
                | none => throw NErr.attributeError
              nc_scan C fuel parts (i2 + 1) { st with arena := a2, attach_point := ap' }
            else do
              let a1 ← attach_argument C fuel st.arena p st.attach_point
              nc_scan C fuel parts (i + 1) { st with arena := a1 }
          else if (st.arena.get st.attach_point).kind == "headcommand" then do
            let a1 ← normalize_command C fuel (parts.drop i) st.arena st.attach_point
            nc_scan C fuel parts ((parts.length - 1) + 1) { st with arena := a1 }
          else
            nc_scan C fuel parts (i + 1) st
        else do
          let a1 := normalize_simple C st.arena p st.attach_point "headcommand" (some "")
          match getRightChildId a1 st.attach_point with
          | some hc =>
            nc_scan C fuel parts (i + 1)
              { st with arena := a1, attach_point := hc,
                        head_commands := st.head_commands ++ [hc] }
          | none => throw NErr.attributeError
      else if (p.word.toList.head? == some '-') && !st.eoo then
        if ((st.arena.get st.attach_point).kind == "flag") &&
            p.word.toList.any Char.isDigit then do
          match ← getHeadCommand st.arena fuel st.attach_point with
          | some hcId =>
            let aty := C.E.get_flag_arg_type ((st.arena.get hcId).value)
              ((st.arena.get st.attach_point).value)
            if !(optFalsy aty) && getNumChildren st.arena st.attach_point == 0 then
              let a1 := normalize_simple C st.arena p st.attach_point "argument" aty
              nc_scan C fuel parts (i + 1) { st with arena := a1 }
            else do
              let (a1, ap') ← attach_option C fuel st.arena p st.attach_point
              nc_scan C fuel parts (i + 1) { st with arena := a1, attach_point := ap' }
          | none => throw NErr.attributeError
        else do
          let (a1, ap') ← attach_option C fuel st.arena p st.attach_point
          nc_scan C fuel parts (i + 1) { st with arena := a1, attach_point := ap' }
      else do
        let st1 ←
          if p.word == "(" then
            pure { st with paren_attach := st.paren_attach ++ [st.attach_point] }
          else if p.word == ")" then
            match st.paren_attach.getLast? with
            | some ap' =>
              pure { st with paren_attach := st.paren_attach.dropLast, attach_point := ap' }
            | none => throw NErr.indexError
          else pure st
        let a1 ← attach_argument C fuel st1.arena p st1.attach_point
        nc_scan C fuel parts (i + 1) { st1 with arena := a1 }
    else pure st

end

/-- Minimal view of the parser's tree shapes that the pipeline claims need:
a command of word parts, a pipeline of parts, and a pipe token. -/
inductive BNode where
  | cmd (parts : List WordPart)
  | pipelineB (parts : List BNode)
  | pipeB

mutual

/-- Embedding of the normalize dispatcher (lines 829-940) for these shapes: a
command runs normalize_command; a pipeline attaches a PipelineNode, exits the
process on an even part count, and otherwise normalizes its command children;
a pipe token outside a pipeline matches no branch and is a no-op. -/
def normalizeB (C : NConf) : Nat → BNode → Arena → Nat → Except NErr Arena
  | 0, _, _, _ => .error .fuel
  | fuel + 1, .cmd parts, a, current => normalize_command C fuel parts a current
  | fuel + 1, .pipelineB ps, a, current =>
    let (a1, nid) := a.alloc ⟨"pipeline", "", none, none, none, none, []⟩
    let a2 := attach_to_tree a1 nid current
    if ps.length % 2 == 0 then .error .processExit
    else normalizeB_list C fuel ps a2 nid
  | _ + 1, .pipeB, a, _ => .ok a

/-- Children loop of the pipeline branch: command children are normalized
under the pipeline node, pipe children are skipped, anything else raises. -/
def normalizeB_list (C : NConf) : Nat → List BNode → Arena → Nat → Except NErr Arena
  | 0, _, _, _ => .error .fuel
  | _ + 1, [], a, _ => .ok a
  | fuel + 1, b :: bs, a, nid =>
    match b with
    | .cmd parts => do
      let a1 ← normalizeB C fuel (.cmd parts) a nid
      normalizeB_list C fuel bs a1 nid
    | .pipeB => normalizeB_list C fuel bs a nid
    | .pipelineB _ => .error (.valueError "unrecognized type of child of pipeline node")

end

/-- Embedding of the tail of normalize_ast: allocate the root, normalize the
parsed tree under it, return the tree, and map ValueError / AssertionError to
the absence value; sys.exit, IndexError and AttributeError escape the
caller. -/
def run_normalize (C : NConf) (fuel : Nat) (b : BNode) : Except NErr (Option (Arena × Nat)) :=
  let (a, root) := (Arena.mk []).alloc ⟨"root", "", none, none, none, none, []⟩
  match normalizeB C fuel b a root with
  | .ok a' => .ok (some (a', root))
  | .error (.valueError _) => .ok none
  | .error .assertionError => .ok none
  | .error e => .error e

/-- Pure view of an arena subtree, for stating concrete run results. -/
def extract (a : Arena) : Nat → Nat → PNode
  | 0, _ => .mk "" "" none []
  | fuel + 1, i =>
    .mk ((a.get i).kind) ((a.get i).value) ((a.get i).argType)
      ((a.get i).children.map (extract a fuel))

/-! ### Lemmas for the tree codec -/

/-- Mutual induction over the node / node-list structure. -/
theorem pnode_ind (P : PNode → Prop) (Q : List PNode → Prop)
    (hmk : ∀ k v targ cs, Q cs → P (.mk k v targ cs))
    (hnil : Q []) (hcons : ∀ c cs, P c → Q cs → Q (c :: cs)) :
    (∀ t, P t) ∧ ∀ cs, Q cs :=
  ⟨fun t => PNode.rec hmk hnil hcons t,
   fun cs => List.rec hnil (fun c cs' ih => hcons c cs' (PNode.rec hmk hnil hcons c) ih) cs⟩

theorem strDataAppend (a b : String) : (a ++ b).data = a.data ++ b.data := rfl

theorem pySplitUnderscore_append (l r : List Char) (h : '_' ∉ l) :
    pySplitUnderscore (l ++ '_' :: r) = some (l, r) := by
  induction l with
  | nil => simp [pySplitUnderscore]
  | cons c cl ih =>
    have hc : ¬ (c = '_') := fun hh => h (by simp [hh])
    have ih' := ih (fun hm => h (List.mem_cons_of_mem _ hm))
    simp [pySplitUnderscore, hc, ih']

theorem symbolOf_ne_noexpand (k v : String) (c : Char) (cs : List Char)
    (he : (pyToUpper k).data = c :: cs) (hc : ¬ (c = '<')) :
    ¬ (symbolOf k v = "<NO_EXPAND>") := by
  intro h
  have h2 := congrArg String.data h
  rw [symbolOf, strDataAppend, strDataAppend, he] at h2
  exact hc (by injection h2)

theorem vocab_facts (k : String) (hk : kindVocab.contains k = true) :
    ('_' ∉ (pyToUpper k).data) ∧ pyToLower (pyToUpper k) = k ∧
      ∀ v : String, ¬ (symbolOf k v = "<NO_EXPAND>") := by
  have hk' : k = "root" ∨ k = "pipeline" ∨ k = "headcommand" ∨ k = "flag" ∨
      k = "argument" ∨ k = "unarylogicop" ∨ k = "binarylogicop" ∨
      k = "commandsubstitution" ∨ k = "processsubstitution" := by
    simpa [kindVocab, List.contains_iff_exists_mem_beq, or_assoc] using hk
  rcases hk' with h | h | h | h | h | h | h | h | h <;> subst h <;>
    exact ⟨by decide, by decide, fun v => symbolOf_ne_noexpand _ v _ _ rfl (by decide)⟩

theorem to_ast_run_cons (gA : String → List String) (gF : String → String → Option String)
    (s : String) (rest : List String) (st : AstState) :
    to_ast_run gA gF (s :: rest) st =
      match to_ast_step gA gF st s with
      | .error e => .error e
      | .ok st' => to_ast_run gA gF rest st' := rfl

theorem symbolOf_toList (k v : String) :
    (symbolOf k v).toList = (pyToUpper k).data ++ '_' :: v.data := by
  show (symbolOf k v).data = _
  rw [symbolOf, strDataAppend, strDataAppend]
  simp

theorem to_ast_step_symbol (gA : String → List String) (gF : String → String → Option String)
    (k v : String) (hk : kindVocab.contains k = true)
    (f : Frame) (fs : List Frame) (aty : Option String)
    (hok : argTypeFor gA gF f.kind f.value (framesHC fs) k v = .ok aty) :
    to_ast_step gA gF (.building (f :: fs)) (symbolOf k v) =
    .ok (.building (⟨k, v, aty, []⟩ :: f :: fs)) := by
  obtain ⟨h1, h2, h3⟩ := vocab_facts k hk
  have hsplit : pySplitUnderscore (symbolOf k v).toList = some ((pyToUpper k).data, v.data) := by
    rw [symbolOf_toList]
    exact pySplitUnderscore_append _ _ h1
  unfold to_ast_step
  dsimp only
  rw [if_neg (h3 v), hsplit]
  show (match argTypeFor gA gF f.kind f.value (framesHC fs)
      (pyToLower (String.mk (pyToUpper k).data)) (String.mk v.data) with
    | .ok aty => Except.ok (AstState.building
        (⟨pyToLower (String.mk (pyToUpper k).data), String.mk v.data, aty, []⟩ :: f :: fs))
    | .error e => Except.error e) = _
  have hmk : (String.mk (pyToUpper k).data) = pyToUpper k := rfl
  have hv : (String.mk v.data) = v := rfl
  rw [hmk, hv, h2, hok]

theorem to_ast_step_noexpand_pop (gA : String → List String)
    (gF : String → String → Option String) (f g : Frame) (more : List Frame) :
    to_ast_step gA gF (.building (f :: g :: more)) "<NO_EXPAND>" =
    .ok (.building ({ g with children := g.children ++ [frameToNode f] } :: more)) := rfl

theorem to_ast_step_noexpand_last (gA : String → List String)
    (gF : String → String → Option String) (f : Frame) :
    to_ast_step gA gF (.building [f]) "<NO_EXPAND>" = .ok (.done (frameToNode f)) := rfl

theorem retype_mk (gA : String → List String) (gF : String → String → Option String)
    (pk pv : String) (hc : Option String) (k v : String) (targ : Option String)
    (cs : List PNode) (aty : Option String)
    (hok : argTypeFor gA gF pk pv hc k v = .ok aty) :
    retype gA gF pk pv hc (.mk k v targ cs) =
    .mk k v aty (retype_list gA gF k v (if pk = "headcommand" then some pv else hc) cs) := by
  unfold retype
  rw [hok]

theorem argTypeFor_ok (gA : String → List String) (gF : String → String → Option String)
    (pk pv : String) (hc : Option String) (k v : String)
    (hcond : goodCond gA pk pv hc k v = true) :
    ∃ aty, argTypeFor gA gF pk pv hc k v = .ok aty := by
  unfold goodCond at hcond
  unfold argTypeFor
  by_cases ha : k = "argument" <;> simp only [ha, if_true, if_false] at hcond ⊢
  · by_cases hf : pk = "flag" <;> simp only [hf, if_true, if_false] at hcond ⊢
    · obtain ⟨h, hh⟩ := Option.isSome_iff_exists.mp hcond
      rw [hh]
      exact ⟨_, rfl⟩
    · by_cases hh2 : pk = "headcommand" <;> simp only [hh2, if_true, if_false] at hcond ⊢
      · cases htc : type_check v (gA pv)
        · exact ⟨_, rfl⟩
        · exact ⟨_, rfl⟩
        · rw [htc] at hcond
          simp at hcond
      · exact ⟨_, rfl⟩
  · by_cases h2 : (k = "flag" ∨ k = "headcommand") <;> simp only [h2, if_true, if_false]
    · simp [h2]
    · simp [h2]

theorem goodTree_mk_iff (gA : String → List String) (pk pv : String) (hc : Option String)
    (k v : String) (targ : Option String) (cs : List PNode) :
    goodTree gA pk pv hc (.mk k v targ cs) = true ↔
    (kindVocab.contains k = true ∧ goodCond gA pk pv hc k v = true ∧
     goodTree_list gA k v (if pk = "headcommand" then some pv else hc) cs = true) := by
  unfold goodTree
  simp [Bool.and_eq_true, and_assoc]

theorem goodTree_list_cons_iff (gA : String → List String) (pk pv : String)
    (hc : Option String) (c : PNode) (cs : List PNode) :
    goodTree_list gA pk pv hc (c :: cs) = true ↔
    (goodTree gA pk pv hc c = true ∧ goodTree_list gA pk pv hc cs = true) := by
  show (goodTree gA pk pv hc c && goodTree_list gA pk pv hc cs) = true ↔ _
  simp [Bool.and_eq_true]



theorem to_list_mk (k v : String) (targ : Option String) (cs : List PNode) :
    to_list (.mk k v targ cs) = symbolOf k v :: to_list_children cs ++ ["<NO_EXPAND>"] := rfl

theorem to_list_children_cons (c : PNode) (cs : List PNode) :
    to_list_children (c :: cs) = to_list c ++ to_list_children cs := rfl

theorem framesHC_cons (f : Frame) (fs : List Frame) :
    framesHC (f :: fs) = if f.kind = "headcommand" then some f.value else framesHC fs := rfl

theorem to_ast_run_build (gA : String → List String) (gF : String → String → Option String) :
    (∀ t : PNode, ∀ (rest : List String) (f : Frame) (fs : List Frame),
      goodTree gA f.kind f.value (framesHC fs) t = true →
      to_ast_run gA gF (to_list t ++ rest) (.building (f :: fs)) =
      to_ast_run gA gF rest
        (.building ({ f with children :=
          f.children ++ [retype gA gF f.kind f.value (framesHC fs) t] } :: fs))) ∧
    (∀ cs : List PNode, ∀ (rest : List String) (f : Frame) (fs : List Frame),
      goodTree_list gA f.kind f.value (framesHC fs) cs = true →
      to_ast_run gA gF (to_list_children cs ++ rest) (.building (f :: fs)) =
      to_ast_run gA gF rest
        (.building ({ f with children :=
          f.children ++ retype_list gA gF f.kind f.value (framesHC fs) cs } :: fs))) := by
  apply pnode_ind
  · intro k v targ cs IH rest f fs hgood
    rw [goodTree_mk_iff] at hgood
    obtain ⟨hk, hcnd, hcs⟩ := hgood
    obtain ⟨aty, haty⟩ := argTypeFor_ok gA gF _ _ _ k v hcnd
    have hTL : to_list (.mk k v targ cs) ++ rest =
        symbolOf k v :: (to_list_children cs ++ ("<NO_EXPAND>" :: rest)) := by
      rw [to_list_mk]
      simp
    rw [hTL, to_ast_run_cons, to_ast_step_symbol gA gF k v hk f fs aty haty]
    dsimp only
    rw [IH ("<NO_EXPAND>" :: rest) ⟨k, v, aty, []⟩ (f :: fs) (by
      rw [framesHC_cons]
      exact hcs)]
    dsimp only
    rw [to_ast_run_cons, to_ast_step_noexpand_pop]
    dsimp only
    rw [retype_mk gA gF f.kind f.value (framesHC fs) k v targ cs aty haty]
    simp [frameToNode, framesHC_cons]
  · intro rest f fs _
    have h0 : to_list_children ([] : List PNode) ++ rest = rest := by
      simp [to_list_children]
    have h1 : retype_list gA gF f.kind f.value (framesHC fs) [] = [] := rfl
    rw [h0, h1]
    have h2 : ({ f with children := f.children ++ [] } : Frame) = f := by
      cases f
      simp
    rw [h2]
  · intro c cs' Pc Qcs rest f fs hgood
    rw [goodTree_list_cons_iff] at hgood
    obtain ⟨h1, h2⟩ := hgood
    have hsh : to_list_children (c :: cs') ++ rest = to_list c ++ (to_list_children cs' ++ rest) := by
      rw [to_list_children_cons]
      simp
    rw [hsh, Pc (to_list_children cs' ++ rest) f fs h1]
    rw [Qcs rest ({ f with children :=
      f.children ++ [retype gA gF f.kind f.value (framesHC fs) c] }) fs h2]
    have h3 : retype_list gA gF f.kind f.value (framesHC fs) (c :: cs') =
        retype gA gF f.kind f.value (framesHC fs) c ::
          retype_list gA gF f.kind f.value (framesHC fs) cs' := rfl
    rw [h3]
    dsimp only
    rw [List.append_assoc]
    rfl



theorem to_ast_to_list (gA : String → List String) (gF : String → String → Option String)
    (vr : String) (targ : Option String) (cs : List PNode)
    (h : goodTree_list gA "root" "root" none cs = true) :
    to_ast gA gF (to_list (.mk "root" vr targ cs)) =
    .ok (.mk "root" "root" none (retype_list gA gF "root" "root" none cs)) := by
  unfold to_ast
  have hdrop : (to_list (.mk "root" vr targ cs)).drop 1 =
      to_list_children cs ++ ["<NO_EXPAND>"] := by
    rw [to_list_mk]
    simp
  rw [hdrop]
  have hrun := (to_ast_run_build gA gF).2 cs ["<NO_EXPAND>"]
    ⟨"root", "root", none, []⟩ [] h
  rw [hrun, to_ast_run_cons, to_ast_step_noexpand_last]
  rfl

theorem ttl_list_cons (x : PNode) (xs : List PNode) :
    to_tokens_loose_list (x :: xs) =
      (to_tokens_loose x).bind (fun a =>
        (to_tokens_loose_list xs).bind (fun b => Except.ok (a ++ b))) := rfl

theorem ttl_sep_cons2 (sep : String) (x y : PNode) (ys : List PNode) :
    to_tokens_loose_sep sep (x :: y :: ys) =
      (to_tokens_loose x).bind (fun a =>
        (to_tokens_loose_sep sep (y :: ys)).bind (fun b =>
          Except.ok (a ++ [sep] ++ b))) := rfl

theorem to_tokens_retype (gA : String → List String) (gF : String → String → Option String) :
    (∀ t : PNode, ∀ (pk pv : String) (hc : Option String),
      to_tokens_loose (retype gA gF pk pv hc t) = to_tokens_loose t) ∧
    (∀ cs : List PNode, ∀ (pk pv : String) (hc : Option String),
      to_tokens_loose_list (retype_list gA gF pk pv hc cs) = to_tokens_loose_list cs ∧
      (∀ sep, to_tokens_loose_sep sep (retype_list gA gF pk pv hc cs) =
        to_tokens_loose_sep sep cs) ∧
      to_tokens_loose_first (retype_list gA gF pk pv hc cs) = to_tokens_loose_first cs ∧
      (retype_list gA gF pk pv hc cs).length = cs.length) := by
  apply pnode_ind
  · intro k v targ cs IH pk pv hc
    obtain ⟨hl, hs, hf, hlen⟩ := IH k v (if pk = "headcommand" then some pv else hc)
    show to_tokens_loose (.mk k v _ (retype_list gA gF k v
      (if pk = "headcommand" then some pv else hc) cs)) = _
    unfold to_tokens_loose
    rw [hl, hs "|", hs v, hf, hlen]
  · intro pk pv hc
    exact ⟨rfl, fun _ => rfl, rfl, rfl⟩
  · intro c cs' Pc Qcs pk pv hc
    obtain ⟨hl, hs, hf, hlen⟩ := Qcs pk pv hc
    have hr : retype_list gA gF pk pv hc (c :: cs') =
        retype gA gF pk pv hc c :: retype_list gA gF pk pv hc cs' := rfl
    refine ⟨?_, ?_, ?_, ?_⟩
    · rw [hr, ttl_list_cons, ttl_list_cons, Pc pk pv hc, hl]
    · intro sep
      cases cs' with
      | nil =>
        have h0 : retype_list gA gF pk pv hc ([] : List PNode) = [] := rfl
        rw [hr, h0]
        show to_tokens_loose (retype gA gF pk pv hc c) = to_tokens_loose c
        exact Pc pk pv hc
      | cons d ds =>
        have hr2 : retype_list gA gF pk pv hc (d :: ds) =
            retype gA gF pk pv hc d :: retype_list gA gF pk pv hc ds := rfl
        have hs2 := hs sep
        rw [hr2] at hs2
        rw [hr, hr2, ttl_sep_cons2, ttl_sep_cons2, Pc pk pv hc, hs2]
    · rw [hr]
      show to_tokens_loose (retype gA gF pk pv hc c) = to_tokens_loose c
      exact Pc pk pv hc
    · rw [hr]
      simp [hlen]

/-- C2, confirmed.  Linearization emits one kind-plus-value symbol per node in
depth-first pre-order with one terminator symbol after each node's children,
leaves included (first conjunct); and delinearizing the linearized sequence of
a normalizer-produced tree (root kind at the top, kinds from the produced
vocabulary, argument re-typing not raising — the grammar lookups gA, gF are
the external grammar service, modelled from the spec) reconstructs the tree up
to the re-derived argument types (second conjunct), whose loose-mode rendered
token sequence is that of the original tree (third conjunct). -/
theorem codec_round_trip (gA : String → List String) (gF : String → String → Option String)
    (vr : String) (targ : Option String) (cs : List PNode)
    (h : goodTree_list gA "root" "root" none cs = true) :
    (∀ (k v : String) (targ2 : Option String) (cs2 : List PNode),
      to_list (.mk k v targ2 cs2) = symbolOf k v :: to_list_children cs2 ++ ["<NO_EXPAND>"]) ∧
    to_ast gA gF (to_list (.mk "root" vr targ cs)) =
      .ok (.mk "root" "root" none (retype_list gA gF "root" "root" none cs)) ∧
    to_tokens_loose (.mk "root" "root" none (retype_list gA gF "root" "root" none cs)) =
      to_tokens_loose (.mk "root" vr targ cs) := by
  refine ⟨fun k v targ2 cs2 => to_list_mk k v targ2 cs2, to_ast_to_list gA gF vr targ cs h, ?_⟩
  show to_tokens_loose_list (retype_list gA gF "root" "root" none cs) = to_tokens_loose_list cs
  exact ((to_tokens_retype gA gF).2 cs "root" "root" none).1

/-- Witness for C2 at a concrete tree and concrete grammar lookups. -/
theorem codec_round_trip_witness :
    goodTree_list (fun _ => ["File", "Pattern"]) "root" "root" none
      [PNode.mk "headcommand" "ls" (some "")
        [PNode.mk "flag" "-l" (some "") [],
         PNode.mk "argument" "a.txt" (some "File") []]] = true ∧
    to_ast (fun _ => ["File", "Pattern"]) (fun _ _ => none)
      (to_list (PNode.mk "root" "" none
        [PNode.mk "headcommand" "ls" (some "")
          [PNode.mk "flag" "-l" (some "") [],
           PNode.mk "argument" "a.txt" (some "File") []]])) =
      .ok (PNode.mk "root" "root" none
        (retype_list (fun _ => ["File", "Pattern"]) (fun _ _ => none) "root" "root" none
          [PNode.mk "headcommand" "ls" (some "")
            [PNode.mk "flag" "-l" (some "") [],
             PNode.mk "argument" "a.txt" (some "File") []]])) ∧
    to_tokens_loose (PNode.mk "root" "root" none
        (retype_list (fun _ => ["File", "Pattern"]) (fun _ _ => none) "root" "root" none
          [PNode.mk "headcommand" "ls" (some "")
            [PNode.mk "flag" "-l" (some "") [],
             PNode.mk "argument" "a.txt" (some "File") []]])) =
      to_tokens_loose (PNode.mk "root" "" none
        [PNode.mk "headcommand" "ls" (some "")
          [PNode.mk "flag" "-l" (some "") [],
           PNode.mk "argument" "a.txt" (some "File") []]]) := by
  refine ⟨by decide, ?_, ?_⟩
  · exact (codec_round_trip (fun _ => ["File", "Pattern"]) (fun _ _ => none) "" none _
      (by decide)).2.1
  · exact (codec_round_trip (fun _ => ["File", "Pattern"]) (fun _ _ => none) "" none _
      (by decide)).2.2

/-! ### Theorems for claims C5 and C10 -/

/-- C5, counterexample.  The claim says that after the reserved-word, Number
and unit rules, the first possible type among File, Pattern, Utility is
chosen, and that in every remaining case resolution fails with a
classification error rather than returning a value.  The word a1 contains a
digit but matches no unit letter, and with File possible the claimed rules
give File; the source's type_check instead falls off the end of the elif
chain and returns no value at all (and does not raise). -/
theorem type_check_claim_counterexample :
    type_check_claimed "a1" ["File"] = TCResult.typed "File" ∧
    type_check "a1" ["File"] = TCResult.retNone ∧
    TCResult.retNone ≠ TCResult.typed "File" ∧
    TCResult.retNone ≠ TCResult.raised := by
  refine ⟨by decide, by decide, by decide, by decide⟩

/-- C5, amended.  The head-command lexical type heuristic resolves, in order:
literal reserved words; all-digit words to Number when possible; digit words
ending in a matching unit letter to Size or Time when that type is possible;
then, for a word that contains a digit but matched none of the above, it
returns no value at all (None) without consulting File, Pattern or Utility and
without raising; only for a digit-free word does it pick the first possible
type among File, Pattern, Utility, and it raises the classification error
exactly when none of those is possible. -/
theorem type_check_amended_ok :
    ∀ (word : String) (possible_types : List String),
      type_check word possible_types = type_check_amended word possible_types := by
  intro w ts
  unfold type_check type_check_amended
  cases h1 : (w == "+" || w == ";" || w == "\x7b\x7d") <;>
    cases h2 : (pyIsDigit w && ts.contains "Number") <;>
      cases h3 : w.toList.any Char.isDigit <;>
        simp [h1, h2, h3]

/-- C10, counterexample.  The claim says every occurrence of the substring
sudo is deleted from the command text before parsing.  Deletion is a single
left-to-right non-overlapping replace, so deleting the inner occurrence of
susudodo splices the surrounding text into a brand new sudo occurrence that
survives preprocessing. -/
theorem special_command_normalization_counterexample :
    special_command_normalization "susudodo" = "sudo" ∧
    strContains "sudo" "sudo" = true := by
  refine ⟨by decide, by decide⟩

/-- C10, amended.  Preprocessing deletes the occurrences of sudo found in one
left-to-right non-overlapping scan (so an occurrence spliced together by the
deletion itself survives, and the pre-parse text is not guaranteed to be
sudo-free), and rewrites the full-path spellings /usr/bin/find, ~/bin/find and
/bin/find to find. -/
theorem special_command_normalization_amended_ok :
    special_command_normalization "sudo find /tmp" = " find /tmp" ∧
    special_command_normalization "ls sudoku" = "ls ku" ∧
    special_command_normalization "/usr/bin/find . -name f" = "find . -name f" ∧
    special_command_normalization "~/bin/find ." = "find ." ∧
    special_command_normalization "/bin/find ." = "find ." ∧
    strContains (special_command_normalization "susudodo") "sudo" = true := by
  refine ⟨by decide, by decide, by decide, by decide, by decide, by decide⟩

end Normalizer

namespace Normalizer

/-- Kind-and-value projection of a node, used to state which nodes an
operation creates. -/
def nodeKV (n : ANode) : String × String := (n.kind, n.value)

theorem set_self_of_getElem? {α : Type} {l : List α} {i : Nat} {x : α}
    (h : l[i]? = some x) : l.set i x = l := by
  induction l generalizing i with
  | nil => simp at h
  | cons c t ih =>
    cases i with
    | zero =>
      simp at h
      simp [h]
    | succ k =>
      simp at h ⊢
      exact ih h

theorem arena_length_set (a : Arena) (i : Nat) (n : ANode) :
    (a.set i n).nodes.length = a.nodes.length := List.length_set _ _ _

theorem arena_length_modify (a : Arena) (i : Nat) (f : ANode → ANode) :
    (a.modify i f).nodes.length = a.nodes.length := List.length_set _ _ _

theorem arena_get_set_self (a : Arena) (i : Nat) (n : ANode) (h : i < a.nodes.length) :
    (a.set i n).get i = n := by
  show (a.nodes.set i n).getD i default = n
  rw [List.getD_eq_getElem?_getD, List.getElem?_set_self h]
  rfl

theorem arena_get_set_ne (a : Arena) (i j : Nat) (n : ANode) (h : j ≠ i) :
    (a.set i n).get j = a.get j := by
  show (a.nodes.set i n).getD j default = a.nodes.getD j default
  rw [List.getD_eq_getElem?_getD, List.getElem?_set_ne (fun hh => h hh.symm),
    ← List.getD_eq_getElem?_getD]

theorem arena_get_modify_self (a : Arena) (i : Nat) (f : ANode → ANode)
    (h : i < a.nodes.length) : (a.modify i f).get i = f (a.get i) :=
  arena_get_set_self a i _ h

theorem arena_get_modify_ne (a : Arena) (i j : Nat) (f : ANode → ANode) (h : j ≠ i) :
    (a.modify i f).get j = a.get j := arena_get_set_ne a i j _ h

theorem arena_get_oob (a : Arena) (i : Nat) (h : a.nodes.length ≤ i) :
    a.get i = default := by
  show a.nodes.getD i default = default
  rw [List.getD_eq_getElem?_getD, List.getElem?_eq_none h]
  rfl

theorem arena_modify_oob (a : Arena) (i : Nat) (f : ANode → ANode)
    (h : a.nodes.length ≤ i) : a.modify i f = a := by
  show Arena.mk (a.nodes.set i _) = a
  rw [List.set_eq_of_length_le h]

theorem arena_get_field_modify {β : Type} (g : ANode → β) (a : Arena) (i j : Nat)
    (f : ANode → ANode) (hf : ∀ n, g (f n) = g n) :
    g ((a.modify i f).get j) = g (a.get j) := by
  by_cases hj : j = i
  · subst hj
    by_cases hb : j < a.nodes.length
    · rw [arena_get_modify_self a j f hb, hf]
    · rw [arena_modify_oob a j f (Nat.le_of_not_lt hb)]
  · rw [arena_get_modify_ne a i j f hj]

theorem arena_get_alloc_lt (a : Arena) (n : ANode) (j : Nat) (h : j < a.nodes.length) :
    ((a.alloc n).1).get j = a.get j := by
  show (a.nodes ++ [n]).getD j default = a.nodes.getD j default
  rw [List.getD_eq_getElem?_getD, List.getElem?_append, if_pos h,
    ← List.getD_eq_getElem?_getD]

theorem arena_get_alloc_self (a : Arena) (n : ANode) :
    ((a.alloc n).1).get a.nodes.length = n := by
  show (a.nodes ++ [n]).getD a.nodes.length default = n
  rw [List.getD_eq_getElem?_getD, List.getElem?_append, if_neg (by omega)]
  simp

theorem map_kv_modify (a : Arena) (i : Nat) (f : ANode → ANode)
    (hf : ∀ n, nodeKV (f n) = nodeKV n) :
    ((a.modify i f).nodes).map nodeKV = a.nodes.map nodeKV := by
  by_cases hb : i < a.nodes.length
  · show (a.nodes.set i (f (a.get i))).map nodeKV = _
    rw [List.map_set]
    apply set_self_of_getElem?
    rw [List.getElem?_map]
    have : a.nodes[i]? = some (a.get i) := by
      show _ = some (a.nodes.getD i default)
      rw [List.getD_eq_getElem?_getD]
      cases hx : a.nodes[i]? with
      | none =>
        rw [List.getElem?_eq_none_iff] at hx
        omega
      | some y => rfl
    rw [this]
    simp [hf]
  · rw [arena_modify_oob a i f (Nat.le_of_not_lt hb)]

theorem map_kv_make_sibling (a : Arena) (l r : Option Nat) :
    ((make_sibling a l r).nodes).map nodeKV = a.nodes.map nodeKV := by
  unfold make_sibling
  cases l with
  | none =>
    cases r with
    | none => rfl
    | some j =>
      dsimp only
      refine map_kv_modify _ _ _ ?_
      exact fun n => rfl
  | some i =>
    cases r with
    | none =>
      dsimp only
      refine map_kv_modify _ _ _ ?_
      exact fun n => rfl
    | some j =>
      dsimp only
      refine (map_kv_modify _ _ _ ?_).trans (map_kv_modify _ _ _ ?_) <;> exact fun n => rfl

theorem map_kv_attach (a : Arena) (n p : Nat) :
    ((attach_to_tree a n p).nodes).map nodeKV = a.nodes.map nodeKV := by
  unfold attach_to_tree
  cases hls : getRightChildId a p with
  | none =>
    dsimp only [hls]
    refine (map_kv_modify _ _ _ ?_).trans (map_kv_modify _ _ _ ?_) <;> exact fun n => rfl
  | some l =>
    dsimp only [hls]
    refine ((map_kv_modify _ _ _ ?_).trans
      (map_kv_modify _ _ _ ?_)).trans (map_kv_modify _ _ _ ?_) <;> exact fun n => rfl

theorem map_kv_normalize_simple (C : NConf) (a : Arena) (p : WordPart) (cur : Nat)
    (k : String) (t : Option String) :
    ((normalize_simple C a p cur k t).nodes).map nodeKV =
    a.nodes.map nodeKV ++ [(k, normalize_word C p k)] := by
  unfold normalize_simple
  rw [map_kv_attach]
  show ((a.nodes ++ [_]).map nodeKV) = _
  simp [nodeKV]

end Normalizer

namespace Normalizer

/-- Concrete instantiation of the external collaborators for witness runs,
modelled from the spec: a registry recognizing find, ls, grep and xargs, no
double-dash options, File as the argument type of every utility, and Pattern
as the argument type of find's -name / -iname flags. -/
def sampleExternals : Externals :=
  { is_headcommand := fun w => w == "find" || w == "ls" || w == "grep" || w == "xargs"
    is_double_option := fun _ => false
    get_arg_types := fun _ => ["File"]
    get_flag_arg_type := fun cmd flag =>
      if cmd == "find" && (flag == "-name" || flag == "-iname") then some "Pattern"
      else none }

/-- Default configuration for witness runs (all normalize_ast flags True). -/
def sampleConf : NConf := ⟨sampleExternals, true, true, true⟩

/-- Pure view of a run outcome. -/
def extractRun (x : Except NErr (Option (Arena × Nat))) : Except NErr (Option PNode) :=
  x.map (Option.map (fun y => extract y.1 10 y.2))

/-- C6, confirmed.  is_binary_logic_op rewrites -o to -or and -a to -and and
reports a binary logic operator exactly when the resolved attach point is the
head command find; otherwise it leaves the word unchanged and reports false,
so the token is attached as an ordinary flag.  Concretely, the find command
with -name, -o, -iname yields a binarylogicop -or holding the two flag
subtrees as its children, while grep -o pattern file keeps -o as a plain
flag. -/
theorem c6_main :
    (∀ (a : Arena) (p : Nat),
      is_binary_logic_op "-o" a p =
        (if ((a.get p).kind == "headcommand") && ((a.get p).value == "find")
         then (true, "-or") else (false, "-o")) ∧
      is_binary_logic_op "-a" a p =
        (if ((a.get p).kind == "headcommand") && ((a.get p).value == "find")
         then (true, "-and") else (false, "-a"))) ∧
    extractRun (run_normalize sampleConf 50 (.cmd
      [⟨"find", "find"⟩, ⟨".", "."⟩, ⟨"-name", "-name"⟩, ⟨"*.txt", "\"*.txt\""⟩,
       ⟨"-o", "-o"⟩, ⟨"-iname", "-iname"⟩, ⟨"*.TXT", "\"*.TXT\""⟩])) =
      .ok (some (.mk "root" "" none
        [.mk "headcommand" "find" (some "")
          [.mk "argument" "." (some "File") [],
           .mk "binarylogicop" "-or" none
             [.mk "flag" "-name" (some "") [.mk "argument" "\"*.txt\"" (some "Pattern") []],
              .mk "flag" "-iname" (some "") [.mk "argument" "\"*.TXT\"" (some "Pattern") []]]]])) ∧
    extractRun (run_normalize sampleConf 50 (.cmd
      [⟨"grep", "grep"⟩, ⟨"-o", "-o"⟩, ⟨"pattern", "pattern"⟩, ⟨"file", "file"⟩])) =
      .ok (some (.mk "root" "" none
        [.mk "headcommand" "grep" (some "")
          [.mk "flag" "-o" (some "") [],
           .mk "argument" "pattern" none [],
           .mk "argument" "file" none []]])) :=
  ⟨fun a p => ⟨rfl, rfl⟩, rfl, rfl⟩

/-- C3, counterexample.  The claim says zero head commands or more than one
head command is surfaced as an absence value.  But a command with zero head
commands (words unknown to the registry) returns silently and a tree of bare
arguments is produced, not the absence value. -/
theorem c3_counterexample :
    extractRun (run_normalize sampleConf 50 (.cmd [⟨"foo.sh", "foo.sh"⟩, ⟨"bar", "bar"⟩])) =
      .ok (some (.mk "root" "" none
        [.mk "argument" "foo.sh" (some "Unknown") [],
         .mk "argument" "bar" (some "Unknown") []])) := rfl

/-- C3, amended.  Zero head commands is a silent return: the scan's tree is
kept and no error is raised; more than one head command calls sys.exit, which
kills the whole process instead of aborting only that input. -/
theorem c3_amended :
    check_head_commands [] = .ok none ∧
    (∀ (h1 h2 : Nat) (rest : List Nat),
      check_head_commands (h1 :: h2 :: rest) = .error .processExit) ∧
    extractRun (run_normalize sampleConf 50 (.cmd [⟨"foo.sh", "foo.sh"⟩, ⟨"bar", "bar"⟩])) =
      .ok (some (.mk "root" "" none
        [.mk "argument" "foo.sh" (some "Unknown") [],
         .mk "argument" "bar" (some "Unknown") []])) :=
  ⟨rfl, fun _ _ _ => rfl, rfl⟩

/-- C4, counterexample.  The claim says an even-length pipeline aborts only
that input and surfaces an absence value.  The code calls sys.exit, which
escapes normalize_ast entirely (processExit is not one of the caught
ValueError/AssertionError classes), rather than producing the absence
value. -/
theorem c4_counterexample :
    run_normalize sampleConf 50 (.pipelineB [.cmd [⟨"ls", "ls"⟩], .pipeB]) =
      .error .processExit := rfl

/-- C4, amended.  A pipeline node with an even number of parts makes
normalization call sys.exit: the process terminates, no absence value is
returned to the caller. -/
theorem c4_amended (C : NConf) (fuel : Nat) (ps : List BNode) (a : Arena) (cur : Nat)
    (h : ps.length % 2 = 0) :
    normalizeB C (fuel + 1) (.pipelineB ps) a cur = .error .processExit := by
  unfold normalizeB
  simp [h]

theorem c4_amended_witness :
    normalizeB sampleConf 50 (.pipelineB [.cmd [⟨"ls", "ls"⟩], .pipeB])
      ((Arena.mk []).alloc ⟨"root", "", none, none, none, none, []⟩).1 0 =
      .error .processExit :=
  c4_amended sampleConf 49 _ _ 0 (by decide)

/-- C8, counterexample.  The claim says every dash word after the marker is
attached as an argument.  But the logic-operator branches run before the
end-of-options flag is consulted: after ls, the word -o following the marker
is still attached as a flag node. -/
theorem c8_counterexample :
    extractRun (run_normalize sampleConf 50 (.cmd
      [⟨"ls", "ls"⟩, ⟨"--", "--"⟩, ⟨"-o", "-o"⟩])) =
      .ok (some (.mk "root" "" none
        [.mk "headcommand" "ls" (some "") [.mk "flag" "-o" (some "") []]])) := rfl

def c9_run : Except NErr (Option (Arena × Nat)) :=
  run_normalize sampleConf 50 (.cmd
    [⟨"find", "find"⟩, ⟨"(", "("⟩, ⟨"-name", "-name"⟩, ⟨"a", "\"a\""⟩,
     ⟨"-name", "-name"⟩, ⟨"b", "\"b\""⟩, ⟨")", ")"⟩])

/-- C9, counterexample.  The claim says every tree-mutating operation keeps
parent and sibling references consistent with the parent's children sequence.
After substituting a parenthesized group, the synthetic binarylogicop node
(id 8) is the sole child of the head command, yet its right-sibling pointer
still names the removed close-parenthesis node (id 7), so the linkage
invariant fails at the head command. -/
theorem c9_counterexample :
    c9_run.map (Option.map (fun y =>
      ((y.1.get 1).children, (y.1.get 8).kind, (y.1.get 8).value,
       (y.1.get 8).children, (y.1.get 5).rsb, (y.1.get 7).value,
       linkedAt y.1 8))) =
      .ok (some ([8], "binarylogicop", "-and", [3, 5], some 7, ")", false)) := rfl

end Normalizer

namespace Normalizer

theorem linkedAt_iff (a : Arena) (p : Nat) :
    linkedAt a p = true ↔
    ∀ k, k < (a.get p).children.length →
      ((a.get ((a.get p).children.getD k 0)).parent = some p ∧
       (a.get ((a.get p).children.getD k 0)).lsb =
         (if k = 0 then none else some ((a.get p).children.getD (k - 1) 0)) ∧
       (a.get ((a.get p).children.getD k 0)).rsb =
         (if k = (a.get p).children.length - 1 then none
          else some ((a.get p).children.getD (k + 1) 0))) := by
  unfold linkedAt
  rw [List.all_eq_true]
  constructor
  · intro h k hk
    have := h k (List.mem_range.mpr hk)
    simpa [Bool.and_eq_true, beq_iff_eq, and_assoc] using this
  · intro h k hk
    have := h k (List.mem_range.mp hk)
    simpa [Bool.and_eq_true, beq_iff_eq, and_assoc] using this

end Normalizer

namespace Normalizer

theorem attach_parent_pres (a : Arena) (nd pt j : Nat) (hj : j ≠ nd) :
    ((attach_to_tree a nd pt).get j).parent = (a.get j).parent := by
  unfold attach_to_tree
  cases hls : getRightChildId a pt with
  | none =>
    dsimp only
    refine Eq.trans (arena_get_field_modify ANode.parent _ _ _ _ ?_) ?_
    · exact fun n => rfl
    · exact congrArg ANode.parent (arena_get_modify_ne _ _ _ _ hj)
  | some l =>
    dsimp only
    refine Eq.trans (arena_get_field_modify ANode.parent _ _ _ _ ?_)
      (Eq.trans (arena_get_field_modify ANode.parent _ _ _ _ ?_) ?_)
    · exact fun n => rfl
    · exact fun n => rfl
    · exact congrArg ANode.parent (arena_get_modify_ne _ _ _ _ hj)

theorem attach_lsb_pres (a : Arena) (nd pt j : Nat) (hj : j ≠ nd) :
    ((attach_to_tree a nd pt).get j).lsb = (a.get j).lsb := by
  unfold attach_to_tree
  cases hls : getRightChildId a pt with
  | none =>
    dsimp only
    refine Eq.trans (arena_get_field_modify ANode.lsb _ _ _ _ ?_) ?_
    · exact fun n => rfl
    · exact congrArg ANode.lsb (arena_get_modify_ne _ _ _ _ hj)
  | some l =>
    dsimp only
    refine Eq.trans (arena_get_field_modify ANode.lsb _ _ _ _ ?_)
      (Eq.trans (arena_get_field_modify ANode.lsb _ _ _ _ ?_) ?_)
    · exact fun n => rfl
    · exact fun n => rfl
    · exact congrArg ANode.lsb (arena_get_modify_ne _ _ _ _ hj)

theorem attach_rsb_pres (a : Arena) (nd pt j : Nat)
    (hj : ∀ l, getRightChildId a pt = some l → j ≠ l) :
    ((attach_to_tree a nd pt).get j).rsb = (a.get j).rsb := by
  unfold attach_to_tree
  cases hls : getRightChildId a pt with
  | none =>
    dsimp only
    refine Eq.trans (arena_get_field_modify ANode.rsb _ _ _ _ ?_)
      (arena_get_field_modify ANode.rsb _ _ _ _ ?_)
    · exact fun n => rfl
    · exact fun n => rfl
  | some l =>
    dsimp only
    refine Eq.trans (congrArg ANode.rsb (arena_get_modify_ne _ _ _ _ (hj l hls)))
      (Eq.trans (arena_get_field_modify ANode.rsb _ _ _ _ ?_)
        (arena_get_field_modify ANode.rsb _ _ _ _ ?_))
    · exact fun n => rfl
    · exact fun n => rfl

theorem attach_children_pres (a : Arena) (nd pt j : Nat) (hj : j ≠ pt) :
    ((attach_to_tree a nd pt).get j).children = (a.get j).children := by
  unfold attach_to_tree
  cases hls : getRightChildId a pt with
  | none =>
    dsimp only
    refine Eq.trans (congrArg ANode.children (arena_get_modify_ne _ _ _ _ hj))
      (arena_get_field_modify ANode.children _ _ _ _ ?_)
    exact fun n => rfl
  | some l =>
    dsimp only
    refine Eq.trans (arena_get_field_modify ANode.children _ _ _ _ ?_)
      (Eq.trans (congrArg ANode.children (arena_get_modify_ne _ _ _ _ hj))
        (arena_get_field_modify ANode.children _ _ _ _ ?_))
    · exact fun n => rfl
    · exact fun n => rfl

end Normalizer

namespace Normalizer

theorem attach_length (a : Arena) (nd pt : Nat) :
    (attach_to_tree a nd pt).nodes.length = a.nodes.length := by
  unfold attach_to_tree
  cases hls : getRightChildId a pt with
  | none =>
    dsimp only
    rw [arena_length_modify, arena_length_modify]
  | some l =>
    dsimp only
    rw [arena_length_modify, arena_length_modify, arena_length_modify]

theorem attach_node_parent (a : Arena) (nd pt : Nat) (h2 : nd < a.nodes.length) :
    ((attach_to_tree a nd pt).get nd).parent = some pt := by
  unfold attach_to_tree
  cases hls : getRightChildId a pt with
  | none =>
    dsimp only
    refine Eq.trans (arena_get_field_modify ANode.parent _ _ _ _ ?_) ?_
    · exact fun n => rfl
    · rw [arena_get_modify_self a nd _ h2]
  | some l =>
    dsimp only
    refine Eq.trans (arena_get_field_modify ANode.parent _ _ _ _ ?_)
      (Eq.trans (arena_get_field_modify ANode.parent _ _ _ _ ?_) ?_)
    · exact fun n => rfl
    · exact fun n => rfl
    · rw [arena_get_modify_self a nd _ h2]

theorem attach_node_lsb (a : Arena) (nd pt : Nat) (h2 : nd < a.nodes.length) :
    ((attach_to_tree a nd pt).get nd).lsb = getRightChildId a pt := by
  unfold attach_to_tree
  cases hls : getRightChildId a pt with
  | none =>
    dsimp only
    refine Eq.trans (arena_get_field_modify ANode.lsb _ _ _ _ ?_) ?_
    · exact fun n => rfl
    · rw [arena_get_modify_self a nd _ h2]
  | some l =>
    dsimp only
    refine Eq.trans (arena_get_field_modify ANode.lsb _ _ _ _ ?_)
      (Eq.trans (arena_get_field_modify ANode.lsb _ _ _ _ ?_) ?_)
    · exact fun n => rfl
    · exact fun n => rfl
    · rw [arena_get_modify_self a nd _ h2]

theorem attach_last_rsb (a : Arena) (nd pt l : Nat) (hls : getRightChildId a pt = some l)
    (hl : l < a.nodes.length) :
    ((attach_to_tree a nd pt).get l).rsb = some nd := by
  unfold attach_to_tree
  rw [hls]
  dsimp only
  rw [arena_get_modify_self]
  rw [arena_length_modify, arena_length_modify]
  exact hl

theorem attach_parent_children (a : Arena) (nd pt : Nat) (h3 : pt < a.nodes.length)
    (h4 : pt ≠ nd) :
    ((attach_to_tree a nd pt).get pt).children = (a.get pt).children ++ [nd] := by
  unfold attach_to_tree
  cases hls : getRightChildId a pt with
  | none =>
    dsimp only
    rw [arena_get_modify_self _ pt _ (by rw [arena_length_modify]; exact h3)]
    rw [arena_get_modify_ne _ _ _ _ h4]
  | some l =>
    dsimp only
    refine Eq.trans (arena_get_field_modify ANode.children _ _ _ _ ?_) ?_
    · exact fun n => rfl
    · rw [arena_get_modify_self _ pt _ (by rw [arena_length_modify]; exact h3)]
      rw [arena_get_modify_ne _ _ _ _ h4]

end Normalizer

namespace Normalizer

/-- C9, amended.  The elementary attachment operation does preserve the
linkage invariant: attaching a fresh node (clear right-sibling pointer, not
yet anyone's child) to a parent keeps parent, left-sibling and right-sibling
references of every node consistent with the parent's ordered children, at
the parent itself and at any node whose children avoid the parent's old last
child; the failure of the claim comes from the parenthesis substitution and
sibling-splicing passes, which leave stale sibling pointers behind. -/
theorem attach_to_tree_preserves_linked (a : Arena) (nd pt q : Nat)
    (h1 : (a.get nd).rsb = none)
    (h2 : nd < a.nodes.length)
    (h3 : pt < a.nodes.length)
    (h4 : nd ≠ pt)
    (h5 : ∀ r, nd ∉ (a.get r).children)
    (h6 : (a.get pt).children.Nodup)
    (h6b : ∀ c ∈ (a.get pt).children, c < a.nodes.length)
    (h7 : q = pt ∨ (q ≠ pt ∧ ∀ l, getRightChildId a pt = some l → l ∉ (a.get q).children))
    (hq : linkedAt a q = true) :
    linkedAt (attach_to_tree a nd pt) q = true := by
  rw [linkedAt_iff] at hq ⊢
  rcases h7 with hqp | ⟨hqne, hql⟩
  · subst hqp
    have hch : ((attach_to_tree a nd q).get q).children = (a.get q).children ++ [nd] :=
      attach_parent_children a nd q h3 (Ne.symm h4)
    rw [hch]
    intro k hk
    have hlen : ((a.get q).children ++ [nd]).length = (a.get q).children.length + 1 := by
      simp
    rw [hlen] at hk
    by_cases hkn : k < (a.get q).children.length
    · have hgetd : ((a.get q).children ++ [nd]).getD k 0 = (a.get q).children.getD k 0 :=
        List.getD_append _ _ _ _ hkn
      rw [hgetd]
      have hc_mem : (a.get q).children.getD k 0 ∈ (a.get q).children := by
        rw [List.getD_eq_getElem _ _ hkn]
        exact List.getElem_mem _
      have hcnd : (a.get q).children.getD k 0 ≠ nd := fun h => (h5 q) (h ▸ hc_mem)
      have hold := hq k hkn
      refine ⟨?_, ?_, ?_⟩
      · rw [attach_parent_pres a nd q _ hcnd]
        exact hold.1
      · rw [attach_lsb_pres a nd q _ hcnd, hold.2.1]
        by_cases hk0 : k = 0
        · simp [hk0]
        · rw [if_neg hk0, if_neg hk0]
          congr 1
          exact (List.getD_append _ _ _ _ (by omega)).symm
      · by_cases hklast : k = (a.get q).children.length - 1
        · have hlast : getRightChildId a q = some ((a.get q).children.getD k 0) := by
            show (a.get q).children.getLast? = _
            rw [show (a.get q).children.getD k 0 =
              (a.get q).children.getD ((a.get q).children.length - 1) 0 from by rw [hklast]]
            rw [List.getLast?_eq_getElem?, List.getElem?_eq_getElem (by omega)]
            exact congrArg some (List.getD_eq_getElem _ _ (by omega)).symm
          rw [attach_last_rsb a nd q _ hlast (h6b _ hc_mem)]
          rw [if_neg (by omega)]
          congr 1
          rw [List.getD_append_right _ _ _ _ (by omega)]
          have : k + 1 - (a.get q).children.length = 0 := by omega
          rw [this]
          rfl
        · have hrs : ∀ l, getRightChildId a q = some l → (a.get q).children.getD k 0 ≠ l := by
            intro l hl hEq
            have hlq : (a.get q).children.getLast? = some l := hl
            have hne : (a.get q).children.length ≠ 0 := by
              intro h0
              rw [List.length_eq_zero] at h0
              rw [h0] at hlq
              simp at hlq
            have hlen1 : (a.get q).children.length - 1 < (a.get q).children.length := by omega
            rw [List.getLast?_eq_getElem?, List.getElem?_eq_getElem hlen1] at hlq
            have hll : (a.get q).children[(a.get q).children.length - 1] = l := by
              injection hlq
            rw [List.getD_eq_getElem _ _ hkn] at hEq
            rw [← hll] at hEq
            have := (List.Nodup.getElem_inj_iff h6).mp hEq
            exact hklast this
          rw [attach_rsb_pres a nd q _ hrs, hold.2.2]
          rw [if_neg hklast, if_neg (by omega)]
          congr 1
          exact (List.getD_append _ _ _ _ (by omega)).symm
    · have hkeq : k = (a.get q).children.length := by omega
      have hgetd : ((a.get q).children ++ [nd]).getD k 0 = nd := by
        rw [List.getD_append_right _ _ _ _ (by omega), hkeq]
        simp
      rw [hgetd]
      refine ⟨attach_node_parent a nd q h2, ?_, ?_⟩
      · rw [attach_node_lsb a nd q h2]
        show (a.get q).children.getLast? = _
        by_cases hk0 : k = 0
        · have h0 : (a.get q).children.length = 0 := by omega
          rw [List.length_eq_zero] at h0
          simp [hk0, h0]
        · rw [if_neg hk0]
          rw [show k - 1 = (a.get q).children.length - 1 from by omega]
          rw [List.getD_append _ _ _ _ (by omega)]
          rw [List.getLast?_eq_getElem?, List.getElem?_eq_getElem (by omega)]
          exact congrArg some (List.getD_eq_getElem _ _ (by omega)).symm
      · rw [if_pos (by omega)]
        have hrs : ∀ l, getRightChildId a q = some l → nd ≠ l := by
          intro l hl hEq
          have hlq : (a.get q).children.getLast? = some l := hl
          have hlm : l ∈ (a.get q).children := by
            rw [List.getLast?_eq_getElem?] at hlq
            exact List.mem_iff_getElem?.mpr ⟨_, hlq⟩
          exact (h5 q) (hEq ▸ hlm)
        rw [attach_rsb_pres a nd q nd hrs]
        exact h1
  · intro k hk
    rw [attach_children_pres a nd pt q hqne] at hk ⊢
    have hold := hq k hk
    have hc_mem : (a.get q).children.getD k 0 ∈ (a.get q).children := by
      rw [List.getD_eq_getElem _ _ hk]
      exact List.getElem_mem _
    have hcnd : (a.get q).children.getD k 0 ≠ nd := fun h => (h5 q) (h ▸ hc_mem)
    have hrs : ∀ l, getRightChildId a pt = some l → (a.get q).children.getD k 0 ≠ l := by
      intro l hl hEq
      exact (hql l hl) (hEq ▸ hc_mem)
    refine ⟨?_, ?_, ?_⟩
    · rw [attach_parent_pres a nd pt _ hcnd]
      exact hold.1
    · rw [attach_lsb_pres a nd pt _ hcnd]
      exact hold.2.1
    · rw [attach_rsb_pres a nd pt _ hrs]
      exact hold.2.2

end Normalizer

namespace Normalizer

theorem normalize_simple_len (C : NConf) (a : Arena) (p : WordPart) (cur : Nat)
    (k : String) (t : Option String) :
    (normalize_simple C a p cur k t).nodes.length = a.nodes.length + 1 := by
  unfold normalize_simple
  rw [attach_length]
  simp [Arena.alloc]

theorem normalize_simple_children_self (C : NConf) (a : Arena) (p : WordPart) (cur : Nat)
    (k : String) (t : Option String) (h : cur < a.nodes.length) :
    ((normalize_simple C a p cur k t).get cur).children =
      (a.get cur).children ++ [a.nodes.length] := by
  unfold normalize_simple
  dsimp only
  rw [show (a.alloc ⟨k, normalize_word C p k, t, none, none, none, []⟩).2 =
    a.nodes.length from rfl]
  rw [attach_parent_children _ _ _ (by simp [Arena.alloc]; omega) (by omega)]
  rw [arena_get_alloc_lt _ _ _ h]

theorem split_fold_effects (C : NConf) (src : String) (ap : Nat) :
    ∀ (cs : List Char) (a : Arena), ap < a.nodes.length →
    ((cs.foldl (fun acc c => normalize_simple C acc ⟨(⟨['-', c]⟩ : String), src⟩ ap
        "flag" (some "")) a).nodes.map nodeKV =
      a.nodes.map nodeKV ++
        cs.map (fun c => ("flag", normalize_word C ⟨(⟨['-', c]⟩ : String), src⟩ "flag"))) ∧
    (((cs.foldl (fun acc c => normalize_simple C acc ⟨(⟨['-', c]⟩ : String), src⟩ ap
        "flag" (some "")) a).get ap).children =
      (a.get ap).children ++ (List.range cs.length).map (fun t => a.nodes.length + t)) ∧
    ((cs.foldl (fun acc c => normalize_simple C acc ⟨(⟨['-', c]⟩ : String), src⟩ ap
        "flag" (some "")) a).nodes.length = a.nodes.length + cs.length) := by
  intro cs
  induction cs with
  | nil =>
    intro a ha
    refine ⟨by simp, by simp, by simp⟩
  | cons c cs' ih =>
    intro a ha
    have hlen1 : (normalize_simple C a ⟨(⟨['-', c]⟩ : String), src⟩ ap "flag"
        (some "")).nodes.length = a.nodes.length + 1 := normalize_simple_len _ _ _ _ _ _
    have ha1 : ap < (normalize_simple C a ⟨(⟨['-', c]⟩ : String), src⟩ ap "flag"
        (some "")).nodes.length := by omega
    obtain ⟨e1, e2, e3⟩ := ih (normalize_simple C a ⟨(⟨['-', c]⟩ : String), src⟩ ap
      "flag" (some "")) ha1
    refine ⟨?_, ?_, ?_⟩
    · rw [List.foldl_cons, e1, map_kv_normalize_simple]
      simp
    · rw [List.foldl_cons, e2, normalize_simple_children_self _ _ _ _ _ _ ha, hlen1]
      rw [List.append_assoc]
      congr 1
      simp only [List.length_cons]
      rw [show cs'.length + 1 = cs'.length.succ from rfl, List.range_succ_eq_map]
      simp [Function.comp]
      intro x hx
      omega
    · rw [List.foldl_cons, e3, hlen1]
      simp only [List.length_cons]
      omega

end Normalizer

namespace Normalizer

/-- In the single-attachment branch of attach_option (double option, logic
operator word, find attach point, or a word of length at most one), exactly
one flag node is attached and becomes the new attach point. -/
theorem attach_option_single (C : NConf) (fuel : Nat) (a : Arena) (p : WordPart)
    (ap0 ap : Nat) (hfp : find_flag_attach_point a fuel ap0 = .ok ap)
    (hap : ap < a.nodes.length)
    (hcond : (C.E.is_double_option p.word || unary_logic_operators.contains p.word ||
      binary_logic_operators.contains p.word || ((a.get ap).value == "find") ||
      decide (p.word.toList.length ≤ 1)) = true) :
    attach_option C fuel a p ap0 =
      .ok (normalize_simple C a p ap "flag" (some ""), a.nodes.length) := by
  unfold attach_option
  rw [hfp]
  simp only [bind, Except.bind, hcond, if_true, pure, Except.pure]
  rw [show getRightChildId (normalize_simple C a p ap "flag" (some "")) ap =
      some a.nodes.length from by
    unfold getRightChildId
    rw [normalize_simple_children_self _ _ _ _ _ _ hap]
    exact List.getLast?_concat _]

/-- In the splitting branch of attach_option (none of the single-attachment
conditions, a dash word with at least two option characters), one flag node
per character is attached by a left fold, and the new attach point is the
last of them. -/
theorem attach_option_split (C : NConf) (fuel : Nat) (a : Arena) (p : WordPart)
    (ap0 ap : Nat) (c : Char) (options : List Char)
    (hfp : find_flag_attach_point a fuel ap0 = .ok ap)
    (hap : ap < a.nodes.length)
    (hcond : (C.E.is_double_option p.word || unary_logic_operators.contains p.word ||
      binary_logic_operators.contains p.word || ((a.get ap).value == "find") ||
      decide (p.word.toList.length ≤ 1)) = false)
    (hw : p.word.toList = '-' :: c :: options)
    (hne : options ≠ []) :
    attach_option C fuel a p ap0 =
      .ok ((c :: options).foldl
        (fun acc x => normalize_simple C acc ⟨(⟨['-', x]⟩ : String), p.src⟩ ap
          "flag" (some "")) a,
        a.nodes.length + options.length) := by
  unfold attach_option
  rw [hfp]
  simp only [bind, Except.bind]
  have hOuter : ¬((C.E.is_double_option p.word || unary_logic_operators.contains p.word ||
      binary_logic_operators.contains p.word || ((a.get ap).value == "find") ||
      decide (p.word.toList.length ≤ 1)) = true) := by
    rw [hcond]
    decide
  rw [if_neg hOuter]
  rw [hw]
  have hlen1 : ((c :: options).length = 1) → False := by
    cases options with
    | nil => exact fun _ => hne rfl
    | cons b bs =>
      simp only [List.length_cons]
      omega
  split
  case _ opts heq =>
    obtain ⟨-, rfl⟩ : '-' = '-' ∧ opts = c :: options := by
      refine ⟨rfl, ?_⟩
      injection heq with h1 h2
      exact h2.symm
    rw [if_neg hlen1]
    simp only [pure, Except.pure]
    obtain ⟨e1, e2, e3⟩ := split_fold_effects C p.src ap (c :: options) a hap
    rw [show getRightChildId ((c :: options).foldl
        (fun acc x => normalize_simple C acc ⟨(⟨['-', x]⟩ : String), p.src⟩ ap
          "flag" (some "")) a) ap = some (a.nodes.length + options.length) from by
      unfold getRightChildId
      rw [e2]
      rw [show (c :: options).length = options.length + 1 from rfl, List.range_succ]
      rw [List.map_append, ← List.append_assoc]
      exact List.getLast?_concat _]
  case _ x hno =>
    exact absurd rfl (hno (c :: options))

end Normalizer

namespace Normalizer

/-- A dash word with exactly one option character falls through the splitting
branch of attach_option back to a single flag attachment. -/
theorem attach_option_single_short (C : NConf) (fuel : Nat) (a : Arena) (p : WordPart)
    (ap0 ap : Nat) (c : Char)
    (hfp : find_flag_attach_point a fuel ap0 = .ok ap)
    (hap : ap < a.nodes.length)
    (hcond : (C.E.is_double_option p.word || unary_logic_operators.contains p.word ||
      binary_logic_operators.contains p.word || ((a.get ap).value == "find") ||
      decide (p.word.toList.length ≤ 1)) = false)
    (hw : p.word.toList = ['-', c]) :
    attach_option C fuel a p ap0 =
      .ok (normalize_simple C a p ap "flag" (some ""), a.nodes.length) := by
  unfold attach_option
  rw [hfp]
  simp only [bind, Except.bind]
  have hOuter : ¬((C.E.is_double_option p.word || unary_logic_operators.contains p.word ||
      binary_logic_operators.contains p.word || ((a.get ap).value == "find") ||
      decide (p.word.toList.length ≤ 1)) = true) := by
    rw [hcond]
    decide
  rw [if_neg hOuter]
  rw [hw]
  split
  case _ opts heq =>
    obtain rfl : opts = [c] := by
      injection heq with h1 h2
      exact h2.symm
    rw [if_pos (show List.length [c] = 1 from rfl)]
    simp only [pure, Except.pure]
    rw [show getRightChildId (normalize_simple C a p ap "flag" (some "")) ap =
        some a.nodes.length from by
      unfold getRightChildId
      rw [normalize_simple_children_self _ _ _ _ _ _ hap]
      exact List.getLast?_concat _]
  case _ x hno =>
    exact absurd rfl (hno [c])

end Normalizer

namespace Normalizer

/-- C7, confirmed.  A flag token handed to attach_option is attached as a
single flag node — when it is a recognized double option, a logic-operator
word, the resolved attach point is the find command, the word has at most one
character, or it is a dash word with exactly one option character — and the
single new node becomes the last child of the resolved attach point and the
new attach point.  Otherwise (a dash word with at least two option
characters, none of the above conditions) it is split: one sibling flag node
per option character is attached by a left fold in the original character
order, the new nodes occupy consecutive positions at the end of the attach
point's children, and the last of them becomes the new attach point.  In
particular ls -la normalizes to the head command ls with exactly the two
sibling flag children -l then -a, in that order. -/
theorem c7_flag_attachment :
    (∀ (C : NConf) (fuel : Nat) (a : Arena) (p : WordPart) (ap0 ap : Nat),
      find_flag_attach_point a fuel ap0 = .ok ap →
      ap < a.nodes.length →
      (((C.E.is_double_option p.word || unary_logic_operators.contains p.word ||
          binary_logic_operators.contains p.word || ((a.get ap).value == "find") ||
          decide (p.word.toList.length ≤ 1)) = true →
        attach_option C fuel a p ap0 =
          .ok (normalize_simple C a p ap "flag" (some ""), a.nodes.length) ∧
        ((normalize_simple C a p ap "flag" (some "")).nodes).map nodeKV =
          a.nodes.map nodeKV ++ [("flag", normalize_word C p "flag")] ∧
        ((normalize_simple C a p ap "flag" (some "")).get ap).children =
          (a.get ap).children ++ [a.nodes.length]) ∧
      (∀ c : Char,
        (C.E.is_double_option p.word || unary_logic_operators.contains p.word ||
          binary_logic_operators.contains p.word || ((a.get ap).value == "find") ||
          decide (p.word.toList.length ≤ 1)) = false →
        p.word.toList = ['-', c] →
        attach_option C fuel a p ap0 =
          .ok (normalize_simple C a p ap "flag" (some ""), a.nodes.length) ∧
        ((normalize_simple C a p ap "flag" (some "")).nodes).map nodeKV =
          a.nodes.map nodeKV ++ [("flag", normalize_word C p "flag")] ∧
        ((normalize_simple C a p ap "flag" (some "")).get ap).children =
          (a.get ap).children ++ [a.nodes.length]) ∧
      (∀ (c : Char) (options : List Char),
        (C.E.is_double_option p.word || unary_logic_operators.contains p.word ||
          binary_logic_operators.contains p.word || ((a.get ap).value == "find") ||
          decide (p.word.toList.length ≤ 1)) = false →
        p.word.toList = '-' :: c :: options →
        options ≠ [] →
        attach_option C fuel a p ap0 =
          .ok ((c :: options).foldl
            (fun acc x => normalize_simple C acc ⟨(⟨['-', x]⟩ : String), p.src⟩ ap
              "flag" (some "")) a,
            a.nodes.length + options.length) ∧
        (((c :: options).foldl
            (fun acc x => normalize_simple C acc ⟨(⟨['-', x]⟩ : String), p.src⟩ ap
              "flag" (some "")) a).nodes).map nodeKV =
          a.nodes.map nodeKV ++ (c :: options).map
            (fun x => ("flag", normalize_word C ⟨(⟨['-', x]⟩ : String), p.src⟩ "flag")) ∧
        (((c :: options).foldl
            (fun acc x => normalize_simple C acc ⟨(⟨['-', x]⟩ : String), p.src⟩ ap
              "flag" (some "")) a).get ap).children =
          (a.get ap).children ++
            (List.range (c :: options).length).map (fun t => a.nodes.length + t)))) ∧
    extractRun (run_normalize sampleConf 50 (.cmd [⟨"ls", "ls"⟩, ⟨"-la", "-la"⟩])) =
      .ok (some (.mk "root" "" none
        [.mk "headcommand" "ls" (some "")
          [.mk "flag" "-l" (some "") [], .mk "flag" "-a" (some "") []]])) := by
  constructor
  · intro C fuel a p ap0 ap hfp hap
    refine ⟨?_, ?_, ?_⟩
    · intro hcond
      exact ⟨attach_option_single C fuel a p ap0 ap hfp hap hcond,
        map_kv_normalize_simple C a p ap "flag" (some ""),
        normalize_simple_children_self C a p ap "flag" (some "") hap⟩
    · intro c hcond hw
      exact ⟨attach_option_single_short C fuel a p ap0 ap c hfp hap hcond hw,
        map_kv_normalize_simple C a p ap "flag" (some ""),
        normalize_simple_children_self C a p ap "flag" (some "") hap⟩
    · intro c options hcond hw hne
      obtain ⟨e1, e2, e3⟩ := split_fold_effects C p.src ap (c :: options) a hap
      exact ⟨attach_option_split C fuel a p ap0 ap c options hfp hap hcond hw hne, e1, e2⟩
  · rfl

end Normalizer

namespace Normalizer

/-- A two-node arena (a root with the head command ls as its only child) used
to exercise the flag attachment branches at concrete inputs. -/
def wFlagArena : Arena :=
  ⟨[⟨"root", "root", none, none, none, none, [1]⟩,
    ⟨"headcommand", "ls", some "", some 0, none, none, []⟩]⟩

theorem c7_flag_attachment_witness :
    (attach_option sampleConf 5 wFlagArena ⟨"-la", "-la"⟩ 1).map
        (fun r => (r.1.nodes.map nodeKV, (r.1.get 1).children, r.2)) =
      .ok ([("root", "root"), ("headcommand", "ls"), ("flag", "-l"), ("flag", "-a")],
        [2, 3], 3) ∧
    (attach_option sampleConf 5 wFlagArena ⟨"-x", "-x"⟩ 1).map
        (fun r => (r.1.nodes.map nodeKV, (r.1.get 1).children, r.2)) =
      .ok ([("root", "root"), ("headcommand", "ls"), ("flag", "-x")], [2], 2) ∧
    (attach_option sampleConf 5 wFlagArena ⟨"-o", "-o"⟩ 1).map
        (fun r => (r.1.nodes.map nodeKV, (r.1.get 1).children, r.2)) =
      .ok ([("root", "root"), ("headcommand", "ls"), ("flag", "-o")], [2], 2) := by
  refine ⟨?_, ?_, ?_⟩
  · have h := ((c7_flag_attachment.1 sampleConf 5 wFlagArena ⟨"-la", "-la"⟩ 1 1 rfl
      (by decide)).2.2 'l' ['a'] rfl rfl (by decide)).1
    rw [h]
    rfl
  · have h := ((c7_flag_attachment.1 sampleConf 5 wFlagArena ⟨"-x", "-x"⟩ 1 1 rfl
      (by decide)).2.1 'x' rfl rfl).1
    rw [h]
    rfl
  · have h := ((c7_flag_attachment.1 sampleConf 5 wFlagArena ⟨"-o", "-o"⟩ 1 1 rfl
      (by decide)).1 rfl).1
    rw [h]
    rfl

end Normalizer

namespace Normalizer

/-- Whenever attach_argument succeeds it appends exactly one node, of kind
argument, carrying the argument-normalized word. -/
theorem attach_argument_kv (C : NConf) (fuel : Nat) (a : Arena) (p : WordPart)
    (apIn : Nat) (a1 : Arena)
    (h : attach_argument C fuel a p apIn = .ok a1) :
    a1.nodes.map nodeKV =
      a.nodes.map nodeKV ++ [("argument", normalize_word C p "argument")] := by
  unfold attach_argument at h
  simp only [bind, Except.bind, pure, Except.pure] at h
  repeat'
    first
      | (injection h with h
         rw [← h]
         exact map_kv_normalize_simple C a p _ "argument" _)
      | split at h
      | simp at h

end Normalizer

namespace Normalizer

/-- C8, amended.  After the end-of-options marker, a dash word that is not a
logic-operator word and does not enter the head-command branch is routed to
attach_argument, which attaches exactly one node of kind argument; but the
unary and binary logic-operator branches are tested before the marker flag is
consulted, so the operator words themselves (-o, -a, !, -not, and their
friends) are still attached as flag or logic-operator nodes even after the
marker. -/
theorem c8_amended :
    (∀ (C : NConf) (fuel : Nat) (parts : List WordPart) (i : Nat) (st : ScanState),
      i < parts.length →
      st.eoo = true →
      ((parts.getD i default).word == "--") = false →
      unary_logic_operators.contains (parts.getD i default).word = false →
      binary_logic_operators.contains (parts.getD i default).word = false →
      (C.E.is_headcommand (parts.getD i default).word &&
        !(with_quotation (parts.getD i default)) &&
        (!((st.arena.get st.attach_point).kind == "headcommand") ||
          shell_wrappers.contains ((st.arena.get st.attach_point).value))) = false →
      ((parts.getD i default).word == "(") = false →
      ((parts.getD i default).word == ")") = false →
      nc_scan C (fuel + 1) parts i st =
        Except.bind (attach_argument C fuel st.arena (parts.getD i default)
            st.attach_point)
          (fun a1 => nc_scan C fuel parts (i + 1) { st with arena := a1 })) ∧
    (∀ (C : NConf) (fuel : Nat) (a : Arena) (p : WordPart) (apIn : Nat) (a1 : Arena),
      attach_argument C fuel a p apIn = .ok a1 →
      a1.nodes.map nodeKV =
        a.nodes.map nodeKV ++ [("argument", normalize_word C p "argument")]) := by
  constructor
  · intro C fuel parts i st hi heoo hd hu hb hh hp1 hp2
    conv_lhs => unfold nc_scan
    rw [if_pos hi]
    simp only [hd, hu, hb, hh, heoo, hp1, hp2, Bool.not_true, Bool.and_false,
      Bool.false_eq_true, if_false, bind, Except.bind, pure, Except.pure]
  · exact attach_argument_kv

end Normalizer

namespace Normalizer

theorem c8_amended_witness :
    nc_scan sampleConf 6 [⟨"ls", "ls"⟩, ⟨"--", "--"⟩, ⟨"-x", "-x"⟩] 2
        ⟨wFlagArena, 1, true, [1], [], [], []⟩ =
      Except.bind (attach_argument sampleConf 5 wFlagArena ⟨"-x", "-x"⟩ 1)
        (fun a1 => nc_scan sampleConf 5 [⟨"ls", "ls"⟩, ⟨"--", "--"⟩, ⟨"-x", "-x"⟩] 3
          ⟨a1, 1, true, [1], [], [], []⟩) ∧
    ∃ a1, attach_argument sampleConf 5 wFlagArena ⟨"-x", "-x"⟩ 1 = .ok a1 ∧
      a1.nodes.map nodeKV = wFlagArena.nodes.map nodeKV ++
        [("argument", normalize_word sampleConf ⟨"-x", "-x"⟩ "argument")] := by
  constructor
  · exact c8_amended.1 sampleConf 5 _ 2 _ (by decide) rfl rfl rfl rfl rfl rfl rfl
  · exact ⟨_, rfl, c8_amended.2 sampleConf 5 wFlagArena ⟨"-x", "-x"⟩ 1 _ rfl⟩

end Normalizer

namespace Normalizer

/-- A three-node arena (a root with one linked child and one detached fresh
node) used to exercise sibling-pointer preservation at a concrete input. -/
def wLinkArena : Arena :=
  ⟨[⟨"root", "root", none, none, none, none, [1]⟩,
    ⟨"headcommand", "ls", some "", some 0, none, none, []⟩,
    ⟨"flag", "-l", some "", none, none, none, []⟩]⟩

theorem attach_preserves_linked_witness :
    linkedAt (attach_to_tree wLinkArena 2 0) 0 = true := by
  refine attach_to_tree_preserves_linked wLinkArena 2 0 0 rfl (by decide) (by decide)
    (by decide) ?_ (by decide) (by decide) (Or.inl rfl) (by decide)
  intro r
  by_cases hr : r < 3
  · interval_cases r <;> decide
  · rw [show wLinkArena.get r = default from arena_get_oob _ _ (by
      show 3 ≤ r
      omega)]
    decide

end Normalizer

namespace Normalizer

/-- make_sibling only rewrites sibling pointers: any field other than lsb and
rsb is untouched at every node. -/
theorem make_sibling_field {β : Type} (g : ANode → β)
    (hr : ∀ (n : ANode) (v : Option Nat), g { n with rsb := v } = g n)
    (hl : ∀ (n : ANode) (v : Option Nat), g { n with lsb := v } = g n)
    (a : Arena) (l r : Option Nat) (x : Nat) :
    g ((make_sibling a l r).get x) = g (a.get x) := by
  unfold make_sibling
  cases l with
  | none =>
    cases r with
    | none => rfl
    | some j =>
      exact arena_get_field_modify g _ _ _ _ (fun n => hl n _)
  | some i =>
    cases r with
    | none =>
      exact arena_get_field_modify g _ _ _ _ (fun n => hr n _)
    | some j =>
      exact (arena_get_field_modify g _ _ _ _ (fun n => hl n _)).trans
        (arena_get_field_modify g _ _ _ _ (fun n => hr n _))

/-- attach_to_tree leaves every node's value unchanged. -/
theorem attach_value (a : Arena) (nd pt x : Nat) :
    ((attach_to_tree a nd pt).get x).value = (a.get x).value := by
  unfold attach_to_tree
  cases hls : getRightChildId a pt with
  | none =>
    dsimp only
    refine Eq.trans (arena_get_field_modify ANode.value _ _ _ _ ?_)
      (arena_get_field_modify ANode.value _ _ _ _ ?_) <;> exact fun n => rfl
  | some l =>
    dsimp only
    refine Eq.trans (Eq.trans (arena_get_field_modify ANode.value _ _ _ _ ?_)
      (arena_get_field_modify ANode.value _ _ _ _ ?_))
      (arena_get_field_modify ANode.value _ _ _ _ ?_) <;> exact fun n => rfl

/-- removeChild leaves every node's value unchanged. -/
theorem removeChild_value (a : Arena) (p c x : Nat) :
    ((removeChild a p c).get x).value = (a.get x).value :=
  arena_get_field_modify ANode.value _ _ _ _ (fun n => rfl)

/-- removeChild leaves the length unchanged. -/
theorem removeChild_length (a : Arena) (p c : Nat) :
    (removeChild a p c).nodes.length = a.nodes.length :=
  arena_length_modify _ _ _

/-- removeChild leaves the children of every other node unchanged. -/
theorem removeChild_children_other (a : Arena) (p c x : Nat) (hx : x ≠ p) :
    ((removeChild a p c).get x).children = (a.get x).children := by
  unfold removeChild
  rw [arena_get_modify_ne _ _ _ _ hx]

/-- removeChild erases the child from the parent's own children list. -/
theorem removeChild_children_self (a : Arena) (p c : Nat) (hp : p < a.nodes.length) :
    ((removeChild a p c).get p).children = (a.get p).children.erase c := by
  unfold removeChild
  rw [arena_get_modify_self _ _ _ hp]

end Normalizer

namespace Normalizer

/-- substituteParentheses leaves every node's value unchanged. -/
theorem subst_value (a : Arena) (self lp rp newc x : Nat) :
    (((substituteParentheses a self lp rp newc).1).get x).value = (a.get x).value := by
  unfold substituteParentheses
  dsimp only
  refine Eq.trans (arena_get_field_modify ANode.value _ _ _ _ ?_) ?_
  · exact fun n => rfl
  refine Eq.trans (removeChild_value _ _ _ _) ?_
  refine Eq.trans (removeChild_value _ _ _ _) ?_
  refine Eq.trans (make_sibling_field ANode.value ?_ ?_ _ _ _ _) ?_
  · exact fun n v => rfl
  · exact fun n v => rfl
  refine Eq.trans (make_sibling_field ANode.value ?_ ?_ _ _ _ _) ?_
  · exact fun n v => rfl
  · exact fun n v => rfl
  refine arena_get_field_modify ANode.value _ _ _ _ ?_
  exact fun n => rfl

/-- make_sibling leaves the node count unchanged. -/
theorem make_sibling_length (a : Arena) (l r : Option Nat) :
    (make_sibling a l r).nodes.length = a.nodes.length := by
  unfold make_sibling
  cases l with
  | none =>
    cases r with
    | none => rfl
    | some j => exact arena_length_modify _ _ _
  | some i =>
    cases r with
    | none => exact arena_length_modify _ _ _
    | some j => exact (arena_length_modify _ _ _).trans (arena_length_modify _ _ _)

/-- substituteParentheses leaves the node count unchanged. -/
theorem subst_length (a : Arena) (self lp rp newc : Nat) :
    ((substituteParentheses a self lp rp newc).1).nodes.length = a.nodes.length := by
  unfold substituteParentheses
  dsimp only
  rw [arena_length_modify, removeChild_length, removeChild_length,
    make_sibling_length, make_sibling_length, arena_length_modify]

end Normalizer

namespace Normalizer

/-- Children of every node are untouched by make_sibling. -/
theorem make_sibling_children (a : Arena) (l r : Option Nat) (x : Nat) :
    ((make_sibling a l r).get x).children = (a.get x).children := by
  refine make_sibling_field ANode.children ?_ ?_ a l r x <;> exact fun n v => rfl

/-- Inserting at the boundary of an append places the element between the two
parts. -/
theorem insertIdx_boundary {α : Type} (U T : List α) (x : α) :
    (U ++ T).insertIdx U.length x = U ++ x :: T := by
  induction U with
  | nil => rfl
  | cons u U ih =>
    show List.insertIdx (U.length + 1) x (u :: (U ++ T)) = u :: (U ++ x :: T)
    rw [List.insertIdx_succ_cons, ih]

/-- indexOf at the head of the tail past a prefix avoiding the element. -/
theorem indexOf_boundary (U : List Nat) (x : Nat) (T : List Nat) (hx : x ∉ U) :
    (U ++ x :: T).indexOf x = U.length := by
  induction U with
  | nil => exact List.indexOf_cons_self _ _
  | cons u U ih =>
    have hux : x ≠ u := fun h => hx (h ▸ List.mem_cons_self u U)
    show List.indexOf x (u :: (U ++ x :: T)) = U.length + 1
    rw [List.indexOf_cons_ne _ (fun h => hux h.symm),
      ih (fun h => hx (List.mem_cons_of_mem u h))]

end Normalizer

namespace Normalizer

/-- substituteParentheses leaves the children of every node other than self
unchanged. -/
theorem subst_children_other (a : Arena) (self lp rp newc x : Nat) (hx : x ≠ self) :
    (((substituteParentheses a self lp rp newc).1).get x).children =
      (a.get x).children := by
  unfold substituteParentheses
  dsimp only
  refine Eq.trans (congrArg ANode.children (arena_get_modify_ne _ _ _ _ hx)) ?_
  refine Eq.trans (removeChild_children_other _ _ _ _ hx) ?_
  refine Eq.trans (removeChild_children_other _ _ _ _ hx) ?_
  refine Eq.trans (make_sibling_children _ _ _ _) ?_
  refine Eq.trans (make_sibling_children _ _ _ _) ?_
  refine arena_get_field_modify ANode.children _ _ _ _ ?_
  exact fun n => rfl

/-- On a parent whose children hold the open and close markers adjacently,
substituteParentheses removes the pair and inserts the replacement at the
open marker's position, returning that index. -/
theorem subst_children_self (a : Arena) (self lp rp newc : Nat)
    (U T : List Nat)
    (hself : self < a.nodes.length)
    (hsn : newc ≠ self)
    (hU : (a.get self).children = U ++ lp :: rp :: T)
    (hlpU : lp ∉ U) (hrpU : rp ∉ U) :
    (((substituteParentheses a self lp rp newc).1).get self).children =
      U ++ newc :: T ∧
    (substituteParentheses a self lp rp newc).2 = U.length := by
  unfold substituteParentheses
  dsimp only
  set a1 := a.modify newc (fun n => { n with parent := (a.get rp).parent }) with ha1
  set a2 := make_sibling a1 ((a1.get lp).lsb) (some newc) with ha2
  set a3 := make_sibling a2 (some newc) ((a2.get rp).rsb) with ha3
  set idx := (a3.get self).children.indexOf lp with hidx0
  set a4 := removeChild a3 self lp with ha4
  set a5 := removeChild a4 self rp with ha5
  have h1 : a1.get self = a.get self := by
    rw [ha1]
    exact arena_get_modify_ne _ _ _ _ (fun h => hsn h.symm)
  have hch3 : (a3.get self).children = U ++ lp :: rp :: T := by
    rw [ha3, make_sibling_children, ha2, make_sibling_children, h1, hU]
  have hl3 : a3.nodes.length = a.nodes.length := by
    rw [ha3, make_sibling_length, ha2, make_sibling_length, ha1, arena_length_modify]
  have hl4 : a4.nodes.length = a.nodes.length := by
    rw [ha4, removeChild_length, hl3]
  have hl5 : a5.nodes.length = a.nodes.length := by
    rw [ha5, removeChild_length, hl4]
  have hidx : idx = U.length := by
    rw [hidx0, hch3, indexOf_boundary U lp (rp :: T) hlpU]
  have hch4 : (a4.get self).children = U ++ rp :: T := by
    rw [ha4, removeChild_children_self _ _ _ (by rw [hl3]; exact hself), hch3,
      List.erase_append_right _ hlpU, List.erase_cons_head]
  have hch5 : (a5.get self).children = U ++ T := by
    rw [ha5, removeChild_children_self _ _ _ (by rw [hl4]; exact hself), hch4,
      List.erase_append_right _ hrpU, List.erase_cons_head]
  constructor
  · rw [arena_get_modify_self _ _ _ (by rw [hl5]; exact hself)]
    dsimp only
    rw [hch5, hidx, insertIdx_boundary]
  · exact hidx

end Normalizer

namespace Normalizer

/-- attach_to_tree leaves every node's kind unchanged. -/
theorem attach_kind (a : Arena) (nd pt x : Nat) :
    ((attach_to_tree a nd pt).get x).kind = (a.get x).kind := by
  unfold attach_to_tree
  cases hls : getRightChildId a pt with
  | none =>
    dsimp only
    refine Eq.trans (arena_get_field_modify ANode.kind _ _ _ _ ?_)
      (arena_get_field_modify ANode.kind _ _ _ _ ?_) <;> exact fun n => rfl
  | some l =>
    dsimp only
    refine Eq.trans (Eq.trans (arena_get_field_modify ANode.kind _ _ _ _ ?_)
      (arena_get_field_modify ANode.kind _ _ _ _ ?_))
      (arena_get_field_modify ANode.kind _ _ _ _ ?_) <;> exact fun n => rfl

/-- Effect of folding attach_to_tree over a buffer: the target node collects
the buffer as children in order; length, all values, and the children of
every other node are untouched. -/
theorem attach_fold_spec (nid : Nat) :
    ∀ (bs : List Nat) (acc : Arena), nid < acc.nodes.length → (∀ b ∈ bs, b ≠ nid) →
    ((bs.foldl (fun ac b => attach_to_tree ac b nid) acc).get nid).children =
      (acc.get nid).children ++ bs ∧
    (bs.foldl (fun ac b => attach_to_tree ac b nid) acc).nodes.length =
      acc.nodes.length ∧
    (∀ x, x ≠ nid →
      ((bs.foldl (fun ac b => attach_to_tree ac b nid) acc).get x).children =
        (acc.get x).children) ∧
    (∀ x, ((bs.foldl (fun ac b => attach_to_tree ac b nid) acc).get x).value =
      (acc.get x).value) ∧
    (∀ x, ((bs.foldl (fun ac b => attach_to_tree ac b nid) acc).get x).kind =
      (acc.get x).kind) := by
  intro bs
  induction bs with
  | nil => exact fun acc h hb => ⟨by simp, rfl, fun x hx => rfl, fun x => rfl, fun x => rfl⟩
  | cons b bs ih =>
    intro acc hlen hb
    have hb1 : b ≠ nid := hb b (List.mem_cons_self b bs)
    have hlen1 : nid < (attach_to_tree acc b nid).nodes.length := by
      rw [attach_length]
      exact hlen
    obtain ⟨e1, e2, e3, e4, e5⟩ := ih (attach_to_tree acc b nid) hlen1
      (fun x hx => hb x (List.mem_cons_of_mem b hx))
    refine ⟨?_, ?_, ?_, ?_, ?_⟩
    · rw [List.foldl_cons, e1,
        attach_parent_children acc b nid hlen (fun h => hb1 h.symm)]
      simp
    · rw [List.foldl_cons, e2, attach_length]
    · intro x hx
      rw [List.foldl_cons, e3 x hx, attach_children_pres acc b nid x hx]
    · intro x
      rw [List.foldl_cons, e4 x, attach_value]
    · intro x
      rw [List.foldl_cons, e5 x, attach_kind]

end Normalizer

namespace Normalizer

/-- organize_buffer allocates a fresh binarylogicop node valued -and whose
children are exactly the buffered nodes in order; lengths grow by one and
every existing node keeps its value and children. -/
theorem organize_spec (a : Arena) (buffer : List Nat)
    (hb : ∀ b ∈ buffer, b < a.nodes.length) :
    (organize_buffer a buffer).2 = a.nodes.length ∧
    ((organize_buffer a buffer).1).nodes.length = a.nodes.length + 1 ∧
    (((organize_buffer a buffer).1).get a.nodes.length).kind = "binarylogicop" ∧
    (((organize_buffer a buffer).1).get a.nodes.length).value = "-and" ∧
    (((organize_buffer a buffer).1).get a.nodes.length).children = buffer ∧
    (∀ x, x ≠ a.nodes.length →
      (((organize_buffer a buffer).1).get x).children = (a.get x).children) ∧
    (∀ x, x < a.nodes.length →
      (((organize_buffer a buffer).1).get x).value = (a.get x).value) := by
  unfold organize_buffer
  dsimp only
  have halloc2 : (a.alloc ⟨"binarylogicop", "-and", none, none, none, none, []⟩).2 =
      a.nodes.length := rfl
  have hlen1 : (a.alloc ⟨"binarylogicop", "-and", none, none, none, none, []⟩).1.nodes.length =
      a.nodes.length + 1 := by
    show (a.nodes ++ [_]).length = a.nodes.length + 1
    simp
  obtain ⟨e1, e2, e3, e4, e5⟩ := attach_fold_spec a.nodes.length buffer
    (a.alloc ⟨"binarylogicop", "-and", none, none, none, none, []⟩).1
    (by rw [hlen1]; omega)
    (fun b hbm => by
      have := hb b hbm
      omega)
  rw [halloc2]
  refine ⟨rfl, ?_, ?_, ?_, ?_, ?_, ?_⟩
  · rw [e2, hlen1]
  · rw [e5, arena_get_alloc_self]
  · rw [e4, arena_get_alloc_self]
  · rw [e1, arena_get_alloc_self]
    rfl
  · intro x hx
    rw [e3 x hx]
    by_cases hxl : x < a.nodes.length
    · rw [arena_get_alloc_lt _ _ _ hxl]
    · rw [show (a.alloc ⟨"binarylogicop", "-and", none, none, none, none, []⟩).1.get x =
          default from arena_get_oob _ _ (by rw [hlen1]; omega),
        show a.get x = default from arena_get_oob _ _ (by omega)]
  · intro x hxl
    rw [e4 x, arena_get_alloc_lt _ _ _ hxl]

end Normalizer

namespace Normalizer

/-- Specification of the pop loop: popping a stack made of a marker-free
prefix, the open marker and a remainder returns the marker and remainder,
collects the prefix in original order into the buffer, and removes exactly
the prefix from the head's children, while every node's value and every
other node's children survive. -/
theorem paren_pop_spec (head : Nat) :
    ∀ (G_rev : List Nat) (fuel : Nat) (a : Arena) (m : Nat) (rest buf : List Nat)
      (res : Arena × Nat × List Nat × List Nat),
    (∀ g ∈ G_rev, ((a.get g).value == "(") = false) →
    ((a.get m).value == "(") = true →
    paren_pop head fuel a (G_rev ++ m :: rest) buf = .ok res →
    ∃ a1, res = (a1, m, rest, G_rev.reverse ++ buf) ∧
      a1.nodes.length = a.nodes.length ∧
      (∀ x, (a1.get x).value = (a.get x).value) ∧
      (∀ x, x ≠ head → (a1.get x).children = (a.get x).children) ∧
      (∀ U V, head < a.nodes.length → (a.get head).children.Nodup →
        (a.get head).children = U ++ G_rev.reverse ++ V →
        (a1.get head).children = U ++ V) := by
  intro G_rev
  induction G_rev with
  | nil =>
    intro fuel a m rest buf res hG hm h
    cases fuel with
    | zero => exact absurd h (by simp [paren_pop])
    | succ f =>
      unfold paren_pop at h
      rw [show ([] : List Nat) ++ m :: rest = m :: rest from rfl] at h
      dsimp only at h
      rw [if_pos hm] at h
      injection h with h
      exact ⟨a, h.symm, rfl, fun x => rfl, fun x hx => rfl,
        fun U V hh hnd hch => by
          rw [hch]
          simp⟩
  | cons g G ih =>
    intro fuel a m rest buf res hG hm h
    cases fuel with
    | zero => exact absurd h (by simp [paren_pop])
    | succ f =>
      unfold paren_pop at h
      rw [show (g :: G) ++ m :: rest = g :: (G ++ m :: rest) from rfl] at h
      dsimp only at h
      rw [if_neg (by
        rw [hG g (List.mem_cons_self g G)]
        decide)] at h
      obtain ⟨a1, hres, hlen, hval, hcho, hchh⟩ :=
        ih f (removeChild a head g) m rest (g :: buf) res
          (fun x hx => by
            rw [removeChild_value]
            exact hG x (List.mem_cons_of_mem g hx))
          (by
            rw [removeChild_value]
            exact hm)
          h
      refine ⟨a1, ?_, ?_, ?_, ?_, ?_⟩
      · rw [hres]
        simp
      · rw [hlen, removeChild_length]
      · intro x
        rw [hval x, removeChild_value]
      · intro x hx
        rw [hcho x hx, removeChild_children_other _ _ _ _ hx]
      · intro U V hh hnd hch
        have hch2 : (a.get head).children = (U ++ G.reverse) ++ g :: V := by
          rw [hch]
          simp
        have hnd2 : ((U ++ G.reverse) ++ g :: V).Nodup := hch2 ▸ hnd
        have hgU : g ∉ U ++ G.reverse := fun hmem =>
          (List.disjoint_of_nodup_append hnd2) hmem (List.mem_cons_self g V)
        have hrc : ((removeChild a head g).get head).children =
            U ++ G.reverse ++ V := by
          rw [removeChild_children_self _ _ _ hh, hch2,
            List.erase_append_right _ hgU, List.erase_cons_head]
        refine hchh U V ?_ ?_ ?_
        · rw [removeChild_length]
          exact hh
        · rw [hrc]
          have hsub : List.Sublist ((U ++ G.reverse) ++ V) ((U ++ G.reverse) ++ g :: V) :=
            List.Sublist.append_left (List.sublist_cons_self g V) _
          exact hsub.nodup hnd2
        · exact hrc

end Normalizer

namespace Normalizer

/-- The first element surviving dropWhile falsifies the predicate. -/
theorem dropWhile_head_false {α : Type} (p : α → Bool) :
    ∀ (l : List α) (x : α) (xs : List α), l.dropWhile p = x :: xs → p x = false := by
  intro l
  induction l with
  | nil =>
    intro x xs h
    exact absurd h (by simp)
  | cons a l ih =>
    intro x xs h
    rw [List.dropWhile_cons] at h
    by_cases hp : p a = true
    · rw [if_pos hp] at h
      exact ih x xs h
    · rw [if_neg hp] at h
      injection h with h1 h2
      rw [← h1]
      cases hpa : p a with
      | false => rfl
      | true => exact absurd hpa hp

/-- A stack containing an open marker splits into a marker-free prefix, the
first marker, and the remainder. -/
theorem stack_split (a : Arena) (stack : List Nat)
    (h : 1 ≤ List.countP (fun x => (a.get x).value == "(") stack) :
    ∃ G_rev m rest, stack = G_rev ++ m :: rest ∧
      (∀ g ∈ G_rev, ((a.get g).value == "(") = false) ∧
      ((a.get m).value == "(") = true := by
  set p := fun x => !((a.get x).value == "(") with hp
  cases htail : stack.dropWhile p with
  | nil =>
    exfalso
    have hall : ∀ x ∈ stack, ((a.get x).value == "(") = false := by
      intro x hx
      have hx2 : x ∈ stack.takeWhile p := by
        rw [← List.takeWhile_append_dropWhile p stack, htail, List.append_nil] at hx
        exact hx
      have := List.mem_takeWhile_imp hx2
      rw [hp] at this
      simpa using this
    have : List.countP (fun x => (a.get x).value == "(") stack = 0 :=
      List.countP_eq_zero.mpr (fun x hx => by rw [hall x hx]; exact fun hh => nomatch hh)
    omega
  | cons m rest =>
    refine ⟨stack.takeWhile p, m, rest, ?_, ?_, ?_⟩
    · rw [← htail, List.takeWhile_append_dropWhile]
    · intro g hg
      have := List.mem_takeWhile_imp hg
      rw [hp] at this
      simpa using this
    · have := dropWhile_head_false p stack m rest htail
      rw [hp] at this
      simpa using this

/-- getLast? past a nonempty suffix. -/
theorem getLast?_past_cons {α : Type} (pre : List α) (x : α) (l : List α)
    (h : l ≠ []) : (pre ++ x :: l).getLast? = l.getLast? := by
  cases l with
  | nil => exact absurd rfl h
  | cons y ys =>
    rw [List.getLast?_append, List.getLast?_cons_cons]
    obtain ⟨z, hz⟩ := Option.isSome_iff_exists.mp
      (List.getLast?_isSome.mpr (by simp) : (y :: ys).getLast?.isSome)
    rw [hz]
    rfl

end Normalizer

namespace Normalizer

/-- Statement of the parenthesis-scan invariant at a given fuel, used as the
induction hypothesis of the loop proof. -/
def ScanIH (head fuel : Nat) : Prop :=
  ∀ (a : Arena) (stack : List Nat) (depth i : Nat)
    (D R : List Nat) (a2 : Arena) (stack2 : List Nat) (depth2 : Nat),
  paren_scan head fuel a stack depth i = .ok (a2, stack2, depth2) →
  (a.get head).children = D ++ stack.reverse ++ R →
  i = D.length + stack.length →
  (∀ x ∈ D, ((a.get x).value == "(") = false ∧ ((a.get x).value == ")") = false) →
  (∀ x ∈ stack, ((a.get x).value == ")") = false) →
  List.countP (fun x => (a.get x).value == "(") stack = depth →
  (∀ m, stack.getLast? = some m → ((a.get m).value == "(") = true) →
  (a.get head).children.Nodup →
  (∀ c ∈ (a.get head).children, c < a.nodes.length) →
  head < a.nodes.length →
  head ∉ (a.get head).children →
  (stack2 = [] →
    ∀ x ∈ (a2.get head).children,
      ((a2.get x).value == "(") = false ∧ ((a2.get x).value == ")") = false)

/-- Continuation of the close-parenthesis step: once the replacement node is
determined and the state facts are in hand, the substitution happens and the
invariant survives into the recursive call. -/
theorem close_step (head f : Nat) (ih : ScanIH head f)
    (a a2x : Arena) (newc m r depth : Nat)
    (D rest Rt : List Nat)
    (a3 : Arena) (idx : Nat)
    (a2 : Arena) (stack2 : List Nat) (depth2 : Nat)
    (hd1 : depth ≥ 1)
    (hlen2 : a.nodes.length ≤ a2x.nodes.length)
    (hch2 : (a2x.get head).children = (D ++ rest.reverse) ++ m :: r :: Rt)
    (h9 : head < a.nodes.length)
    (hnd2 : (a2x.get head).children.Nodup)
    (hbound2 : ∀ c ∈ (a2x.get head).children, c < a.nodes.length)
    (hhead10 : head ∉ (a2x.get head).children)
    (hnewc_lt : newc < a2x.nodes.length)
    (hnewc_nmem : newc ∉ (a2x.get head).children)
    (hnewc_nh : newc ≠ head)
    (hnewcLP : ((a2x.get newc).value == "(") = false)
    (hnewcRP : ((a2x.get newc).value == ")") = false)
    (h3x : ∀ x ∈ D, ((a2x.get x).value == "(") = false ∧ ((a2x.get x).value == ")") = false)
    (h4rest : ∀ x ∈ rest, ((a2x.get x).value == ")") = false)
    (h5rest : List.countP (fun x => (a2x.get x).value == "(") rest = depth - 1)
    (h6rest : ∀ mm, rest.getLast? = some mm → ((a2x.get mm).value == "(") = true)
    (hsubeq : substituteParentheses a2x head m r newc = (a3, idx))
    (h : paren_scan head f a3 (if depth - 1 ≥ 1 then newc :: rest else rest)
      (depth - 1) (idx + 1) = .ok (a2, stack2, depth2)) :
    stack2 = [] →
      ∀ x ∈ (a2.get head).children,
        ((a2.get x).value == "(") = false ∧ ((a2.get x).value == ")") = false := by
  have hmU : m ∉ D ++ rest.reverse := by
    intro hmem
    rw [hch2] at hnd2
    exact (List.disjoint_of_nodup_append hnd2) hmem (List.mem_cons_self _ _)
  have hrU : r ∉ D ++ rest.reverse := by
    intro hmem
    rw [hch2] at hnd2
    exact (List.disjoint_of_nodup_append hnd2) hmem
      (List.mem_cons_of_mem _ (List.mem_cons_self _ _))
  obtain ⟨hch3, hidx⟩ := subst_children_self a2x head m r newc (D ++ rest.reverse) Rt
    (by omega) hnewc_nh hch2 hmU hrU
  rw [hsubeq] at hch3 hidx
  dsimp only at hch3 hidx
  have hval3 : ∀ x, (a3.get x).value = (a2x.get x).value := by
    intro x
    have := subst_value a2x head m r newc x
    rw [hsubeq] at this
    exact this
  have hlen3 : a3.nodes.length = a2x.nodes.length := by
    have := subst_length a2x head m r newc
    rw [hsubeq] at this
    exact this
  have hndch : ((D ++ rest.reverse) ++ newc :: Rt).Nodup := by
    rw [hch2] at hnd2
    have hA : (D ++ rest.reverse).Nodup := hnd2.of_append_left
    have hB : Rt.Nodup :=
      @List.Nodup.of_append_right _ [m, r] Rt (hnd2.of_append_right)
    have hdisj := List.disjoint_of_nodup_append hnd2
    refine List.nodup_append.mpr ⟨hA, List.nodup_cons.mpr ⟨?_, hB⟩, ?_⟩
    · intro hmem
      exact hnewc_nmem (by
        rw [hch2]
        exact List.mem_append.mpr (Or.inr
          (List.mem_cons_of_mem _ (List.mem_cons_of_mem _ hmem))))
    · intro x hxA hxB
      rcases List.mem_cons.mp hxB with hx | hx
      · subst hx
        exact hnewc_nmem (by
          rw [hch2]
          exact List.mem_append.mpr (Or.inl hxA))
      · exact hdisj hxA (List.mem_cons_of_mem _ (List.mem_cons_of_mem _ hx))
  have hbound3 : ∀ c ∈ (D ++ rest.reverse) ++ newc :: Rt, c < a3.nodes.length := by
    intro c hc
    rcases List.mem_append.mp hc with hc | hc
    · have := hbound2 c (by
        rw [hch2]
        exact List.mem_append.mpr (Or.inl hc))
      omega
    · rcases List.mem_cons.mp hc with hc | hc
      · subst hc
        omega
      · have := hbound2 c (by
          rw [hch2]
          exact List.mem_append.mpr (Or.inr
            (List.mem_cons_of_mem _ (List.mem_cons_of_mem _ hc))))
        omega
  have hhead3 : head ∉ (D ++ rest.reverse) ++ newc :: Rt := by
    intro hmem
    rcases List.mem_append.mp hmem with hc | hc
    · exact hhead10 (by
        rw [hch2]
        exact List.mem_append.mpr (Or.inl hc))
    · rcases List.mem_cons.mp hc with hc | hc
      · exact hnewc_nh hc.symm
      · exact hhead10 (by
        rw [hch2]
        exact List.mem_append.mpr (Or.inr
          (List.mem_cons_of_mem _ (List.mem_cons_of_mem _ hc))))
  by_cases hdd : depth - 1 ≥ 1
  · rw [if_pos hdd] at h
    have hrestne : rest ≠ [] := by
      intro hnil
      rw [hnil] at h5rest
      simp at h5rest
      omega
    refine ih a3 (newc :: rest) (depth - 1) (idx + 1) D Rt a2 stack2 depth2 h
      ?_ ?_ ?_ ?_ ?_ ?_ ?_ ?_ ?_ ?_
    · rw [hch3]
      simp
    · rw [hidx]
      simp only [List.length_append, List.length_reverse, List.length_cons]
      omega
    · intro x hx
      rw [hval3]
      exact h3x x hx
    · intro x hx
      rw [hval3]
      rcases List.mem_cons.mp hx with hx | hx
      · subst hx
        exact hnewcRP
      · exact h4rest x hx
    · rw [List.countP_cons_of_neg (fun x => (a3.get x).value == "(") rest
        (show ¬ ((a3.get newc).value == "(") = true from by
          rw [hval3, hnewcLP]
          exact fun hh => nomatch hh)]
      rw [List.countP_congr (fun x hx => by rw [hval3])]
      exact h5rest
    · intro mm hmm
      cases rest with
      | nil => exact absurd rfl hrestne
      | cons s ss =>
        rw [List.getLast?_cons_cons] at hmm
        rw [hval3]
        exact h6rest mm hmm
    · rw [hch3]
      exact hndch
    · rw [hch3]
      exact hbound3
    · omega
    · rw [hch3]
      exact hhead3
  · have hrest0 : rest = [] := by
      by_contra hne
      obtain ⟨mm, hmm⟩ := Option.isSome_iff_exists.mp
        (List.getLast?_isSome.mpr hne)
      have hmark := h6rest mm hmm
      have hmmem : mm ∈ rest := by
        rw [List.getLast?_eq_getElem?] at hmm
        exact List.mem_iff_getElem?.mpr ⟨_, hmm⟩
      have : 0 < List.countP (fun x => (a2x.get x).value == "(") rest :=
        List.countP_pos_iff.mpr ⟨mm, hmmem, hmark⟩
      omega
    rw [if_neg hdd, hrest0] at h
    refine ih a3 [] (depth - 1) (idx + 1) (D ++ [newc]) Rt a2 stack2 depth2 h
      ?_ ?_ ?_ ?_ ?_ ?_ ?_ ?_ ?_ ?_
    · rw [hch3, hrest0]
      simp
    · rw [hidx, hrest0]
      simp
    · intro x hx
      rcases List.mem_append.mp hx with hx | hx
      · rw [hval3]
        exact h3x x hx
      · rw [List.mem_singleton.mp hx, hval3]
        exact ⟨hnewcLP, hnewcRP⟩
    · intro x hx
      exact absurd hx (List.not_mem_nil x)
    · simp
      omega
    · intro mm hmm
      simp at hmm
    · rw [hch3]
      exact hndch
    · rw [hch3]
      exact hbound3
    · omega
    · rw [hch3]
      exact hhead3

end Normalizer

namespace Normalizer

/-- Invariant induction for the parenthesis-desugaring loop: starting from a
state whose scanned prefix is free of parenthesis markers except for the
tracked stack, a successful scan that ends with an empty stack leaves the
head command's children entirely free of parenthesis markers. -/
theorem paren_scan_spec (head : Nat) :
    ∀ (fuel : Nat) (a : Arena) (stack : List Nat) (depth i : Nat)
      (D R : List Nat) (a2 : Arena) (stack2 : List Nat) (depth2 : Nat),
    paren_scan head fuel a stack depth i = .ok (a2, stack2, depth2) →
    (a.get head).children = D ++ stack.reverse ++ R →
    i = D.length + stack.length →
    (∀ x ∈ D, ((a.get x).value == "(") = false ∧ ((a.get x).value == ")") = false) →
    (∀ x ∈ stack, ((a.get x).value == ")") = false) →
    List.countP (fun x => (a.get x).value == "(") stack = depth →
    (∀ m, stack.getLast? = some m → ((a.get m).value == "(") = true) →
    (a.get head).children.Nodup →
    (∀ c ∈ (a.get head).children, c < a.nodes.length) →
    head < a.nodes.length →
    head ∉ (a.get head).children →
    (stack2 = [] →
      ∀ x ∈ (a2.get head).children,
        ((a2.get x).value == "(") = false ∧ ((a2.get x).value == ")") = false) := by
  intro fuel
  induction fuel with
  | zero =>
    intro a stack depth i D R a2 stack2 depth2 h
    exact absurd h (by simp [paren_scan])
  | succ f ih =>
    intro a stack depth i D R a2 stack2 depth2 h h1 h2 h3 h4 h5 h6 h7 h8 h9 h10
    unfold paren_scan at h
    by_cases hi : i < getNumChildren a head
    · rw [if_pos hi] at h
      cases R with
      | nil =>
        exfalso
        have : getNumChildren a head = i := by
          show (a.get head).children.length = i
          rw [h1, h2]
          simp
        omega
      | cons r Rt =>
        have hchild : (a.get head).children.getD i 0 = r := by
          rw [h1, h2]
          rw [List.getD_append_right _ _ _ _ (by
            simp only [List.length_append, List.length_reverse]
            omega)]
          simp
        have hrmem : r ∈ (a.get head).children := by
          rw [h1]
          exact List.mem_append.mpr (Or.inr (List.mem_cons_self _ _))
        cases hLP : ((a.get r).value == "(") with
        | true =>
          simp only [hchild, hLP, if_true] at h
          have hrv : (a.get r).value = "(" := by
            have := hLP
            rwa [beq_iff_eq] at this
          refine ih a (r :: stack) (depth + 1) (i + 1) D Rt a2 stack2 depth2 h
            ?_ ?_ h3 ?_ ?_ ?_ h7 h8 h9 h10
          · rw [h1]
            simp
          · simp only [List.length_cons]
            omega
          · intro x hx
            rcases List.mem_cons.mp hx with hx | hx
            · subst hx
              rw [hrv]
              decide
            · exact h4 x hx
          · rw [List.countP_cons_of_pos (fun x => (a.get x).value == "(") stack
              (show ((a.get r).value == "(") = true from hLP), h5]
          · intro m hm
            cases stack with
            | nil =>
              injection hm with hm
              rw [← hm]
              exact hLP
            | cons s ss =>
              rw [List.getLast?_cons_cons] at hm
              exact h6 m hm
        | false =>
          cases hRP : ((a.get r).value == ")") with
          | true =>
            by_cases hd1 : depth ≥ 1
            · obtain ⟨G_rev, m, rest, hsplit, hGfree, hmk⟩ := stack_split a stack (by
                rw [h5]
                omega)
              simp only [hchild, hLP, hRP, Bool.false_eq_true, if_false, if_true,
                if_pos hd1, bind, Except.bind] at h
              rw [hsplit] at h
              cases hpop : paren_pop head f a (G_rev ++ m :: rest) [] with
              | error e =>
                rw [hpop] at h
                exact absurd h (by simp)
              | ok res1 =>
                rw [hpop] at h
                obtain ⟨a1, hres, hplen, hpval, hpcho, hpchh⟩ :=
                  paren_pop_spec head G_rev f a m rest [] res1 hGfree hmk hpop
                subst hres
                dsimp only at h
                simp only [List.append_nil] at h
                have hchA : (a.get head).children =
                    (D ++ rest.reverse ++ [m]) ++ G_rev.reverse ++ (r :: Rt) := by
                  rw [h1, hsplit]
                  simp
                have hchA1 : (a1.get head).children =
                    (D ++ rest.reverse ++ [m]) ++ (r :: Rt) :=
                  hpchh _ _ h9 h7 hchA
                have hndA : ((D ++ rest.reverse ++ [m]) ++ G_rev.reverse ++ (r :: Rt)).Nodup :=
                  hchA ▸ h7
                have hndA1 : (a1.get head).children.Nodup := by
                  rw [hchA1]
                  refine List.Sublist.nodup ?_ hndA
                  rw [List.append_assoc (D ++ rest.reverse ++ [m])]
                  exact List.Sublist.append_left (List.sublist_append_right _ _) _
                have hmemstack : ∀ x ∈ stack, x ∈ (a.get head).children := by
                  intro x hx
                  rw [h1]
                  exact List.mem_append.mpr (Or.inl (List.mem_append.mpr
                    (Or.inr (List.mem_reverse.mpr hx))))
                have hboundA1 : ∀ c ∈ (a1.get head).children, c < a.nodes.length := by
                  intro c hc
                  refine h8 c ?_
                  rw [hchA1] at hc
                  rw [hchA]
                  rcases List.mem_append.mp hc with hc | hc
                  · exact List.mem_append.mpr (Or.inl (List.mem_append.mpr (Or.inl hc)))
                  · exact List.mem_append.mpr (Or.inr hc)
                have hheadA1 : head ∉ (a1.get head).children := by
                  intro hc
                  refine h10 ?_
                  rw [hchA1] at hc
                  rw [hchA]
                  rcases List.mem_append.mp hc with hc | hc
                  · exact List.mem_append.mpr (Or.inl (List.mem_append.mpr (Or.inl hc)))
                  · exact List.mem_append.mpr (Or.inr hc)
                have hchA1x : (a1.get head).children =
                    (D ++ rest.reverse) ++ m :: r :: Rt := by
                  rw [hchA1]
                  simp
                have hrestmem : ∀ x ∈ rest, x ∈ stack := by
                  intro x hx
                  rw [hsplit]
                  exact List.mem_append.mpr (Or.inr (List.mem_cons_of_mem _ hx))
                have h5restA : List.countP (fun x => (a.get x).value == "(") rest =
                    depth - 1 := by
                  rw [hsplit] at h5
                  rw [List.countP_append] at h5
                  rw [List.countP_eq_zero.mpr (fun x hx => by
                    rw [hGfree x hx]
                    exact fun hh => nomatch hh)] at h5
                  rw [List.countP_cons_of_pos (fun x => (a.get x).value == "(") rest
                    (show ((a.get m).value == "(") = true from hmk)] at h5
                  omega
                have h4restA : ∀ x ∈ rest, ((a1.get x).value == ")") = false := by
                  intro x hx
                  rw [hpval]
                  exact h4 x (hrestmem x hx)
                have h5restA1 : List.countP (fun x => (a1.get x).value == "(") rest =
                    depth - 1 := by
                  rw [List.countP_congr (fun x hx => by rw [hpval])]
                  exact h5restA
                have h6restA1 : ∀ mm, rest.getLast? = some mm →
                    ((a1.get mm).value == "(") = true := by
                  intro mm hmm
                  have hrne : rest ≠ [] := by
                    intro hnil
                    rw [hnil] at hmm
                    exact nomatch hmm
                  rw [hpval]
                  refine h6 mm ?_
                  rw [hsplit, getLast?_past_cons G_rev m rest hrne]
                  exact hmm
                have h3xA1 : ∀ x ∈ D, ((a1.get x).value == "(") = false ∧
                    ((a1.get x).value == ")") = false := by
                  intro x hx
                  rw [hpval]
                  exact h3 x hx
                cases hGr : G_rev.reverse with
                | nil =>
                  rw [hGr] at h
                  simp at h
                | cons b bs =>
                  cases bs with
                  | nil =>
                    rw [hGr] at h
                    rw [if_neg (show ¬ ([b].length > 1) from by simp)] at h
                    simp only [pure, Except.pure] at h
                    have hbG : b ∈ G_rev := by
                      rw [← List.mem_reverse, hGr]
                      exact List.mem_cons_self _ _
                    have hbstack : b ∈ stack := by
                      rw [hsplit]
                      exact List.mem_append.mpr (Or.inl hbG)
                    have hbmem : b ∈ (a.get head).children := hmemstack b hbstack
                    have hbnm : b ∉ (a1.get head).children := by
                      rw [hchA1]
                      intro hc
                      have hdisj1 := List.disjoint_of_nodup_append hndA
                      have hnd12 := hndA.of_append_left
                      have hdisj2 := List.disjoint_of_nodup_append hnd12
                      have hbG2 : b ∈ G_rev.reverse := by
                        rw [hGr]
                        exact List.mem_cons_self _ _
                      rcases List.mem_append.mp hc with hc | hc
                      · exact hdisj2 hc hbG2
                      · exact hdisj1 (List.mem_append.mpr (Or.inr hbG2)) hc
                    cases hsx : substituteParentheses a1 head m r b with
                    | mk a3 idx =>
                      rw [hsx] at h
                      dsimp only at h
                      refine close_step head f ih a a1 b m r depth D rest Rt a3 idx
                        a2 stack2 depth2 hd1 (by omega) hchA1x h9 hndA1 hboundA1
                        hheadA1 (by
                          rw [hplen]
                          exact h8 b hbmem) hbnm
                        (fun hh => h10 (hh ▸ hbmem)) (by
                          rw [hpval]
                          exact hGfree b hbG) (by
                          rw [hpval]
                          exact h4 b hbstack)
                        h3xA1 h4restA h5restA1 h6restA1 hsx h
                  | cons b2 bs2 =>
                    rw [hGr] at h
                    rw [if_pos (show (b :: b2 :: bs2).length > 1 from by
                      simp only [List.length_cons]
                      omega)] at h
                    simp only [pure, Except.pure] at h
                    have hbufmem : ∀ x ∈ G_rev.reverse, x < a1.nodes.length := by
                      intro x hx
                      rw [hplen]
                      refine h8 x (hmemstack x ?_)
                      rw [hsplit]
                      exact List.mem_append.mpr (Or.inl (List.mem_reverse.mp hx))
                    obtain ⟨ho2, holen, hokind, hoval, hoch, hocho, hovalo⟩ :=
                      organize_spec a1 G_rev.reverse hbufmem
                    rw [hGr] at ho2 holen hokind hoval hoch hocho hovalo
                    cases horg : organize_buffer a1 (b :: b2 :: bs2) with
                    | mk a2x newc =>
                      rw [horg] at h ho2 holen hokind hoval hoch hocho hovalo
                      dsimp only at h ho2 holen hokind hoval hoch hocho hovalo
                      have hnewc_eq : newc = a1.nodes.length := ho2
                      have hlenX : a2x.nodes.length = a1.nodes.length + 1 := holen
                      have hchX : (a2x.get head).children =
                          (D ++ rest.reverse) ++ m :: r :: Rt := by
                        rw [hocho head (by
                          rw [hplen]
                          omega), hchA1x]
                      have hvalX : ∀ x, x < a.nodes.length →
                          (a2x.get x).value = (a.get x).value := by
                        intro x hx
                        rw [hovalo x (by rw [hplen]; omega), hpval]
                      cases hsx : substituteParentheses a2x head m r newc with
                      | mk a3 idx =>
                        rw [hsx] at h
                        dsimp only at h
                        refine close_step head f ih a a2x newc m r depth D rest Rt a3 idx
                          a2 stack2 depth2 hd1 (by
                            rw [hlenX, hplen]
                            omega) hchX h9 (by
                            rw [hchX, ← hchA1x]
                            exact hndA1) (by
                            rw [hchX, ← hchA1x]
                            exact hboundA1) (by
                            rw [hchX, ← hchA1x]
                            exact hheadA1) (by
                            rw [hnewc_eq, hlenX]
                            omega) (by
                            rw [hchX, ← hchA1x]
                            intro hc
                            have hlt := hboundA1 newc hc
                            rw [hnewc_eq, hplen] at hlt
                            omega) (by
                            rw [hnewc_eq, hplen]
                            omega) (by
                            rw [hnewc_eq, hoval]
                            decide) (by
                            rw [hnewc_eq, hoval]
                            decide)
                          (fun x hx => by
                            rw [hvalX x (h8 x (by
                              rw [h1]
                              exact List.mem_append.mpr (Or.inl
                                (List.mem_append.mpr (Or.inl hx)))))]
                            exact h3 x hx)
                          (fun x hx => by
                            rw [hvalX x (h8 x (hmemstack x (hrestmem x hx)))]
                            exact h4 x (hrestmem x hx))
                          (by
                            rw [List.countP_congr (fun x hx => by
                              rw [hvalX x (h8 x (hmemstack x (hrestmem x hx)))])]
                            exact h5restA)
                          (fun mm hmm => by
                            have hrne : rest ≠ [] := by
                              intro hnil
                              rw [hnil] at hmm
                              exact nomatch hmm
                            have hmmm : mm ∈ rest := by
                              rw [List.getLast?_eq_getElem?] at hmm
                              exact List.mem_iff_getElem?.mpr ⟨_, hmm⟩
                            rw [hvalX mm (h8 mm (hmemstack mm (hrestmem mm hmmm)))]
                            refine h6 mm ?_
                            rw [hsplit, getLast?_past_cons G_rev m rest hrne]
                            exact hmm)
                          hsx h
            · simp only [hchild, hLP, hRP, Bool.false_eq_true, if_false, if_true,
                if_neg hd1] at h
              exact absurd h (by simp)
          | false =>
            by_cases hd1 : depth ≥ 1
            · simp only [hchild, hLP, hRP, Bool.false_eq_true, if_false,
                if_pos hd1] at h
              refine ih a (r :: stack) depth (i + 1) D Rt a2 stack2 depth2 h
                ?_ ?_ h3 ?_ ?_ ?_ h7 h8 h9 h10
              · rw [h1]
                simp
              · simp only [List.length_cons]
                omega
              · intro x hx
                rcases List.mem_cons.mp hx with hx | hx
                · subst hx
                  exact hRP
                · exact h4 x hx
              · rw [List.countP_cons_of_neg (fun x => (a.get x).value == "(") stack
                  (show ¬ ((a.get r).value == "(") = true from by
                    rw [hLP]
                    exact fun hh => nomatch hh), h5]
              · intro m hm
                have hsne : stack ≠ [] := by
                  intro hnil
                  rw [hnil] at h5
                  simp at h5
                  omega
                cases stack with
                | nil => exact absurd rfl hsne
                | cons s ss =>
                  rw [List.getLast?_cons_cons] at hm
                  exact h6 m hm
            · have hstack : stack = [] := by
                by_contra hne
                obtain ⟨m, hm⟩ := Option.isSome_iff_exists.mp
                  (List.getLast?_isSome.mpr hne)
                have hmark := h6 m hm
                have hmmem : m ∈ stack := by
                  rw [List.getLast?_eq_getElem?] at hm
                  exact List.mem_iff_getElem?.mpr ⟨_, hm⟩
                have : 0 < List.countP (fun x => (a.get x).value == "(") stack :=
                  List.countP_pos_iff.mpr ⟨m, hmmem, hmark⟩
                omega
              simp only [hchild, hLP, hRP, Bool.false_eq_true, if_false,
                if_neg hd1] at h
              refine ih a stack depth (i + 1) (D ++ [r]) Rt a2 stack2 depth2 h
                ?_ ?_ ?_ h4 h5 h6 h7 h8 h9 h10
              · rw [h1, hstack]
                simp
              · rw [hstack]
                simp only [List.length_append, List.length_cons, List.length_nil]
                rw [hstack] at h2
                simp at h2
                omega
              · intro x hx
                rcases List.mem_append.mp hx with hx | hx
                · exact h3 x hx
                · rw [List.mem_singleton.mp hx]
                  exact ⟨hLP, hRP⟩
    · rw [if_neg hi] at h
      injection h with h
      injection h with ha h
      injection h with hs hd
      intro hs2 x hx
      have hstack : stack = [] := by rw [hs, hs2]
      rw [← ha] at hx
      have hRnil : R = [] := by
        have hnc : getNumChildren a head = (a.get head).children.length := rfl
        have hlen : (a.get head).children.length = D.length + R.length := by
          rw [h1, hstack]
          simp
        rw [hnc, hlen] at hi
        rw [hstack] at h2
        simp at h2
        exact List.length_eq_zero.mp (by omega)
      have hxD : x ∈ D := by
        rw [h1, hstack, hRnil] at hx
        simpa using hx
      rw [← ha]
      exact h3 x hxD

end Normalizer

namespace Normalizer

/-- C1, confirmed.  On the head command's children, the parenthesis scan
started from the empty stack replaces matched groups so that a successful run
ending with an empty stack (the state the trailing asserts demand) leaves no
parenthesis marker among the children; the replacement of a popped group is
the organize_buffer synthetic binarylogicop valued -and wrapping the collected
group when it has more than one element, or the lone grouped node itself
otherwise, spliced by substituteParentheses in place of the marker pair; and
normalizing the find command with a parenthesized group of -name, -o, -name yields
the head command find with a single binarylogicop valued -or directly among
its children with no extra -and wrapper, while the same group without -o is
wrapped in a synthetic -and. -/
theorem c1_paren_desugar :
    (∀ (head fuel : Nat) (a a2 : Arena) (depth2 : Nat),
      paren_scan head fuel a [] 0 0 = .ok (a2, [], depth2) →
      (a.get head).children.Nodup →
      (∀ c ∈ (a.get head).children, c < a.nodes.length) →
      head < a.nodes.length →
      head ∉ (a.get head).children →
      ∀ x ∈ (a2.get head).children,
        ((a2.get x).value == "(") = false ∧ ((a2.get x).value == ")") = false) ∧
    (∀ (a : Arena) (buffer : List Nat),
      (∀ b ∈ buffer, b < a.nodes.length) →
      (((organize_buffer a buffer).1).get (organize_buffer a buffer).2).kind =
        "binarylogicop" ∧
      (((organize_buffer a buffer).1).get (organize_buffer a buffer).2).value =
        "-and" ∧
      (((organize_buffer a buffer).1).get (organize_buffer a buffer).2).children =
        buffer) ∧
    (∀ (a : Arena) (self lp rp newc : Nat) (U T : List Nat),
      self < a.nodes.length → newc ≠ self →
      (a.get self).children = U ++ lp :: rp :: T →
      lp ∉ U → rp ∉ U →
      (((substituteParentheses a self lp rp newc).1).get self).children =
        U ++ newc :: T) ∧
    extractRun (run_normalize sampleConf 50 (.cmd
      [⟨"find", "find"⟩, ⟨".", "."⟩, ⟨"(", "("⟩, ⟨"-name", "-name"⟩,
       ⟨"*.c", "\"*.c\""⟩, ⟨"-o", "-o"⟩, ⟨"-name", "-name"⟩,
       ⟨"*.h", "\"*.h\""⟩, ⟨")", ")"⟩])) =
      .ok (some (.mk "root" "" none
        [.mk "headcommand" "find" (some "")
          [.mk "argument" "." (some "File") [],
           .mk "binarylogicop" "-or" none
             [.mk "flag" "-name" (some "") [.mk "argument" "\"*.c\"" (some "Pattern") []],
              .mk "flag" "-name" (some "") [.mk "argument" "\"*.h\"" (some "Pattern") []]]]])) ∧
    extractRun (run_normalize sampleConf 50 (.cmd
      [⟨"find", "find"⟩, ⟨".", "."⟩, ⟨"(", "("⟩, ⟨"-name", "-name"⟩,
       ⟨"*.c", "\"*.c\""⟩, ⟨"-name", "-name"⟩, ⟨"*.h", "\"*.h\""⟩, ⟨")", ")"⟩])) =
      .ok (some (.mk "root" "" none
        [.mk "headcommand" "find" (some "")
          [.mk "argument" "." (some "File") [],
           .mk "binarylogicop" "-and" none
             [.mk "flag" "-name" (some "") [.mk "argument" "\"*.c\"" (some "Pattern") []],
              .mk "flag" "-name" (some "") [.mk "argument" "\"*.h\"" (some "Pattern") []]]]])) := by
  refine ⟨?_, ?_, ?_, rfl, rfl⟩
  · intro head fuel a a2 depth2 h hnd hbound hh hhm
    exact paren_scan_spec head fuel a [] 0 0 [] ((a.get head).children) a2 [] depth2 h
      (by simp) rfl
      (fun x hx => absurd hx (List.not_mem_nil x))
      (fun x hx => absurd hx (List.not_mem_nil x))
      rfl
      (fun m hm => by simp at hm)
      hnd hbound hh hhm rfl
  · intro a buffer hb
    obtain ⟨ho2, _, hk, hv, hc, _, _⟩ := organize_spec a buffer hb
    rw [ho2]
    exact ⟨hk, hv, hc⟩
  · intro a self lp rp newc U T hself hsn hU hlpU hrpU
    exact (subst_children_self a self lp rp newc U T hself hsn hU hlpU hrpU).1

/-- A five-node arena (root, a find head command with a parenthesized lone
group among its children) for exercising the parenthesis scan concretely. -/
def wParenArena : Arena :=
  ⟨[⟨"root", "root", none, none, none, none, [1]⟩,
    ⟨"headcommand", "find", some "", some 0, none, none, [2, 3, 4]⟩,
    ⟨"argument", "(", some "", some 1, none, some 3, []⟩,
    ⟨"binarylogicop", "-or", none, some 1, some 2, some 4, []⟩,
    ⟨"argument", ")", some "", some 1, some 3, none, []⟩]⟩

theorem c1_paren_desugar_witness :
    (∀ x ∈ ((((paren_scan 1 10 wParenArena [] 0 0).toOption.getD
        (wParenArena, [], 0)).1).get 1).children,
      (((((paren_scan 1 10 wParenArena [] 0 0).toOption.getD
        (wParenArena, [], 0)).1).get x).value == "(") = false ∧
      (((((paren_scan 1 10 wParenArena [] 0 0).toOption.getD
        (wParenArena, [], 0)).1).get x).value == ")") = false) ∧
    (((organize_buffer wParenArena [2, 3]).1).get
      (organize_buffer wParenArena [2, 3]).2).children = [2, 3] ∧
    (((substituteParentheses wParenArena 1 2 3 5).1).get 1).children = [5, 4] := by
  refine ⟨?_, ?_, ?_⟩
  · exact c1_paren_desugar.1 1 10 wParenArena _ _ rfl (by decide) (by decide)
      (by decide) (by decide)
  · exact (c1_paren_desugar.2.1 wParenArena [2, 3] (by decide)).2.2
  · exact c1_paren_desugar.2.2.1 wParenArena 1 2 3 5 [] [4] (by decide) (by decide)
      rfl (by decide) (by decide)

end Normalizer
